import Mathlib

/-!
# Verification of the logkv embeddable key-value store

This development embeds the core of the logkv C++ library (headers
`logkv/serializer.h`, `logkv/autoser.h`, `logkv/autoser/bytes.h`,
`logkv/autoser/pushback.h`, `logkv/autoser/associative.h`, `logkv/store.h`)
as executable Lean definitions and proves properties of the serialization
framework, of the framed event log, and of the `Store` state machine.

Bytes are modelled as natural numbers (each `< 256` where it matters, stated
as an explicit hypothesis); machine integers are modelled as `Nat` with
explicit truncation where the C++ code can overflow.  Buffers and files are
modelled as `List Nat`.  The C++ code under consideration runs on a
little-endian machine (the on-disk checksum and length fields are produced
by `memcpy` from native integers; the specification fixes them as
little-endian), so multi-byte raw copies are modelled little-endian.
-/

namespace Logkv

/-! ## Byte-level helpers -/

/-- Little-endian value of a byte list: `leVal [b0, b1, ...] = b0 + 256*b1 + ...`.
Models reading back a multi-byte field written by `memcpy` from a native
(little-endian) integer. -/
def leVal : List Nat → Nat
  | [] => 0
  | b :: rest => b % 256 + 256 * leVal rest

/-- The `n` low-order bytes of `v`, least significant first.  Models a
`memcpy` of `n` bytes out of a native (little-endian) integer `v`. -/
def leBytes : Nat → Nat → List Nat
  | 0, _ => []
  | n + 1, v => v % 256 :: leBytes n (v / 256)

/-- The `n` bytes of `v`, most significant first.  Models
`boost::endian::native_to_big` followed by a `memcpy` of `sizeof(T)` bytes
(serializer for integral types in `autoser.h`). -/
def beBytes (n v : Nat) : List Nat := (leBytes n v).reverse

/-! ## VarUint: little-endian base-128 variable-length unsigned integers

`logkv::VarUint<T>` (autoser.h).  `bits` stands for `sizeof(T) * 8` of the
underlying unsigned type. -/

/-- Model of `std::bit_width`: number of bits needed to represent `v` (0 for 0). -/
def bit_width (v : Nat) : Nat := Nat.size v

/-- Model of `serializer<VarUint<T>>::get_size`: 1 byte for the value 0, otherwise
`(bit_width(v) + 6) / 7` bytes. -/
def varSize (v : Nat) : Nat :=
  if v = 0 then 1 else (bit_width v + 6) / 7

/-- The byte sequence produced by `serializer<VarUint<T>>::write`'s loop:
7 payload bits per byte, least significant group first, continuation bit
(0x80) on every byte but the last. -/
def varEnc (v : Nat) : List Nat :=
  if h : v < 0x80 then [v]
  else (v % 0x80 + 0x80) :: varEnc (v / 0x80)
decreasing_by exact Nat.div_lt_self (by omega) (by norm_num)

/-- Mathematical value of a terminated base-128 byte sequence (7 low bits of
each byte, least significant group first).  Reference function used to state
what a stream "decodes to". -/
def varVal : List Nat → Nat
  | [] => 0
  | b :: rest => b % 0x80 + 0x80 * varVal rest

/-- Model of `serializer<VarUint<T>>::read` (autoser.h), as a loop over the input
bytes.  `bits` is `sizeof(T) * 8`; `i` counts bytes consumed so far, `shift`
and `result` are the loop accumulators.  `.error ()` models the two thrown
`VarUint overflow` errors; `.ok (u, some v)` a successful decode consuming
`u` bytes; `.ok (size + 1, none)` the "need more bytes" return (the out
parameter is not updated). -/
def varReadAux (bits : Nat) : List Nat → Nat → Nat → Nat → Except Unit (Nat × Option Nat)
  | [], i, _, _ => .ok (i + 1, none)
  | b :: rest, i, shift, result =>
    if (bits + 6) / 7 ≤ i then .error ()
    else
      let part := b &&& 0x7F
      if (2 ^ bits - 1) >>> shift < part then .error ()
      else
        let result2 := result ||| (part <<< shift)
        if b &&& 0x80 = 0 then .ok (i + 1, some result2)
        else varReadAux bits rest (i + 1) (shift + 7) result2

/-- Model of `serializer<VarUint<T>>::read` on a source with `src.length` available
bytes. -/
def varRead (bits : Nat) (src : List Nat) : Except Unit (Nat × Option Nat) :=
  varReadAux bits src 0 0 0

/-! ## The built-in serializers (autoser.h and companions)

`Val` is a deep embedding of the values handled by the built-in logkv
serializers; `Ty` the corresponding static types.  The mapping to C++:

* `uint w v`       — any integral type of `w` bytes (`serializer<T>` for
                     integral `T`); `v` is the big-endian byte pattern value.
* `varUint bits v` — `VarUint<U>` with `bits = 8 * sizeof(U)`.
* `bytes bs`       — `std::string` / byte `std::vector`
                     (`DynamicBytesSerializer`, autoser/bytes.h).
* `fixedBytes bs`  — `std::array` of bytes (raw, no length prefix).
* `tup vs`         — `std::tuple`, `std::array<T,N>` of serializable `T`
                     (element-wise concatenation), and user composites via
                     `composite_traits` (their tuple encoding).
* `seq vs`         — `std::vector/list/deque` (`DynamicPushBackSerializer`)
                     and the associative containers
                     (`DynamicAssociativeSerializer`; a map's `(k, v)` entry
                     is a two-element `tup`).
* `variant idx p`  — `std::variant`: one-byte discriminant then the selected
                     alternative. -/

inductive Val where
  | uint (w : Nat) (v : Nat)
  | varUint (bits : Nat) (v : Nat)
  | bytes (bs : List Nat)
  | fixedBytes (bs : List Nat)
  | tup (vs : List Val)
  | seq (vs : List Val)
  | variant (idx : Nat) (payload : Val)

inductive Ty where
  | uint (w : Nat)
  | varUint (bits : Nat)
  | bytes
  | fixedBytes (n : Nat)
  | tup (ts : List Ty)
  | seq (t : Ty)
  | variant (ts : List Ty)

/-- Big-endian value of a byte list (a `memcpy` into a native integer
followed by `boost::endian::big_to_native`). -/
def beVal (l : List Nat) : Nat := leVal l.reverse

/-- Model of `MAX_AUTOSER_BYTES` (autoser.h): 1024 * 1024 * 1024. -/
def MAX_AUTOSER_BYTES : Nat := 0x40000000

/-- Model of `MAX_AUTOSER_ITEMS` (autoser.h): 256 * 1024 * 1024. -/
def MAX_AUTOSER_ITEMS : Nat := 0x10000000

mutual
/-- Model of `serializer<T>::get_size` for each built-in serializer.  (The C++
`get_size` throws past the autoser container limits; this model keeps the
arithmetic total — the corresponding throws are modelled in `wr`/`rd`, and
all claims are stated for values within the limits, see `tyOk`.) -/
def get_size : Val → Nat
  | .uint w _ => w
  | .varUint _ v => varSize v
  | .bytes bs => varSize bs.length + bs.length
  | .fixedBytes bs => bs.length
  | .tup vs => get_size_list vs
  | .seq vs => varSize vs.length + get_size_list vs
  | .variant _ p => 1 + get_size p

def get_size_list : List Val → Nat
  | [] => 0
  | v :: vs => get_size v + get_size_list vs
end

mutual
/-- Model of `serializer<T>::is_empty` for each built-in serializer: zero for
integers and VarUint, zero length for dynamic containers, all-zero for byte
arrays, all-members-empty for tuples/composites, held-alternative-empty for
variants. -/
def is_empty : Val → Bool
  | .uint _ v => v == 0
  | .varUint _ v => v == 0
  | .bytes bs => bs.length == 0
  | .fixedBytes bs => bs.all (fun b => b == 0)
  | .tup vs => is_empty_list vs
  | .seq vs => vs.length == 0
  | .variant _ p => is_empty p

def is_empty_list : List Val → Bool
  | [] => true
  | v :: vs => is_empty v && is_empty_list vs
end

mutual
/-- The byte string produced by a successful write of `v` (the contents the
serializers `memcpy`/loop into the destination when it fits). -/
def enc : Val → List Nat
  | .uint w v => beBytes w v
  | .varUint _ v => varEnc v
  | .bytes bs => varEnc bs.length ++ bs
  | .fixedBytes bs => bs
  | .tup vs => enc_list vs
  | .seq vs => varEnc vs.length ++ enc_list vs
  | .variant idx p => idx % 256 :: enc p

def enc_list : List Val → List Nat
  | [] => []
  | v :: vs => enc v ++ enc_list vs
end

mutual
/-- Model of `serializer<T>::write`.  `dest` is the current contents of the
destination region (so `dest.length` is the capacity argument); the result
is `(returned byte count, new region contents)`.  `.error ()` models the
thrown size-limit errors.  Scalar serializers leave `dest` untouched when
the capacity is insufficient; `Writer`-based aggregate serializers
(tuples, arrays of serializables, composites, containers) write member by
member directly into the region and return
`bytes_processed + required_bytes` from the `insufficient_buffer` handler. -/
def wr : Val → List Nat → Except Unit (Nat × List Nat)
  | .uint w v, dest =>
    if dest.length < w then .ok (w, dest)
    else .ok (w, beBytes w v ++ dest.drop w)
  | .varUint _ v, dest =>
    if dest.length < varSize v then .ok (varSize v, dest)
    else .ok (varSize v, varEnc v ++ dest.drop (varSize v))
  | .bytes bs, dest =>
    if MAX_AUTOSER_BYTES < bs.length then .error ()
    else
      let required := varSize bs.length + bs.length
      if dest.length < required then .ok (required, dest)
      else .ok (required, (varEnc bs.length ++ bs) ++ dest.drop required)
  | .fixedBytes bs, dest =>
    if dest.length < bs.length then .ok (bs.length, dest)
    else .ok (bs.length, bs ++ dest.drop bs.length)
  | .tup vs, dest => wrList vs dest 0
  | .seq vs, dest =>
    if MAX_AUTOSER_ITEMS < vs.length then .error ()
    else
      let lenSz := varSize vs.length
      if dest.length < lenSz then .ok (lenSz, dest)
      else wrList vs (varEnc vs.length ++ dest.drop lenSz) lenSz
  | .variant idx p, dest =>
    let needed := 1 + get_size p
    if dest.length < needed then .ok (needed, dest)
    else
      match wr p (dest.drop 1) with
      | .error e => .error e
      | .ok (_, region2) => .ok (needed, idx % 256 :: region2)

/-- The `Writer` loop of the aggregate serializers: write each member at the
current offset `pos` of the buffer; on `insufficient_buffer` return
`bytes_processed + e.get_required_bytes()` (members already written stay in
the buffer). -/
def wrList : List Val → List Nat → Nat → Except Unit (Nat × List Nat)
  | [], buf, pos => .ok (pos, buf)
  | v :: vs, buf, pos =>
    let region := buf.drop pos
    match wr v region with
    | .error e => .error e
    | .ok (used, region2) =>
      let buf2 := buf.take pos ++ region2
      if region.length < used then .ok (pos + used, buf2)
      else wrList vs buf2 (pos + used)
end

mutual
/-- Well-formedness of a value at a type: the value is within the type's
range (bit patterns fit the declared width, VarUint values fit the base
type, container sizes are within the autoser limits, byte entries are
bytes, variant discriminants select an existing alternative of a variant
with at most 256 alternatives).  All are facts guaranteed by the C++ type
system and the serializers' static checks. -/
def tyOk : Ty → Val → Bool
  | .uint w, .uint w2 v => w == w2 && decide (v < 2 ^ (8 * w))
  | .varUint bits, .varUint bits2 v =>
    bits == bits2 && decide (0 < bits) && decide (v < 2 ^ bits)
  | .bytes, .bytes bs =>
    decide (bs.length ≤ MAX_AUTOSER_BYTES) && bs.all (fun b => b < 256)
  | .fixedBytes n, .fixedBytes bs => bs.length == n && bs.all (fun b => b < 256)
  | .tup ts, .tup vs => tyOkList ts vs
  | .seq t, .seq vs => decide (vs.length ≤ MAX_AUTOSER_ITEMS) && tyOkSeq t vs
  | .variant ts, .variant idx p => decide (ts.length ≤ 256) && tyOkAt ts idx p
  | _, _ => false
termination_by t _ => (sizeOf t, 0)
decreasing_by
  all_goals simp_wf
  all_goals first
    | (apply Prod.Lex.left; omega)
    | (apply Prod.Lex.right; omega)

def tyOkList : List Ty → List Val → Bool
  | [], [] => true
  | t :: ts, v :: vs => tyOk t v && tyOkList ts vs
  | _, _ => false
termination_by ts _ => (sizeOf ts, 0)
decreasing_by
  all_goals simp_wf
  all_goals first
    | (apply Prod.Lex.left; omega)
    | (apply Prod.Lex.right; omega)

def tyOkSeq : Ty → List Val → Bool
  | _, [] => true
  | t, v :: vs => tyOk t v && tyOkSeq t vs
termination_by t vs => (sizeOf t, vs.length + 1)
decreasing_by
  all_goals simp_wf
  all_goals first
    | (apply Prod.Lex.left; omega)
    | (apply Prod.Lex.right; omega)

def tyOkAt : List Ty → Nat → Val → Bool
  | [], _, _ => false
  | t :: _, 0, p => tyOk t p
  | _ :: ts, k + 1, p => tyOkAt ts k p
termination_by ts _ _ => (sizeOf ts, 0)
decreasing_by
  all_goals simp_wf
  all_goals first
    | (apply Prod.Lex.left; omega)
    | (apply Prod.Lex.right; omega)
end

mutual
/-- Model of `serializer<T>::read`.  Result: `.error ()` models the thrown decode
errors; `.ok (u, some v)` a successful decode consuming `u` bytes;
`.ok (u, none)` with `u > src.length` the "need more bytes" return (the out
parameter not updated — for aggregates, `Reader`'s `insufficient_buffer`
handler returning `bytes_processed + required`). -/
def rd : Ty → List Nat → Except Unit (Nat × Option Val)
  | .uint w, src =>
    if src.length < w then .ok (w, none)
    else .ok (w, some (.uint w (beVal (src.take w))))
  | .varUint bits, src =>
    match varRead bits src with
    | .error e => .error e
    | .ok (u, v?) => .ok (u, v?.map fun x => Val.varUint bits x)
  | .bytes, src =>
    match varRead 64 src with
    | .error e => .error e
    | .ok (lenSize, none) => .ok (lenSize, none)
    | .ok (lenSize, some len) =>
      if MAX_AUTOSER_BYTES < len then .error ()
      else
        let required := lenSize + len
        if src.length < required then .ok (required, none)
        else .ok (required, some (.bytes ((src.drop lenSize).take len)))
  | .fixedBytes n, src =>
    if src.length < n then .ok (n, none)
    else .ok (n, some (.fixedBytes (src.take n)))
  | .tup ts, src =>
    match rdList ts src 0 with
    | .error e => .error e
    | .ok (u, vs?) => .ok (u, vs?.map Val.tup)
  | .seq t, src =>
    match varRead 64 src with
    | .error e => .error e
    | .ok (u, none) => .ok (u, none)
    | .ok (u, some len) =>
      if MAX_AUTOSER_ITEMS < len then .error ()
      else
        match rdCount len t src u with
        | .error e => .error e
        | .ok (pos, vs?) => .ok (pos, vs?.map Val.seq)
  | .variant ts, src =>
    if src.length < 1 then .ok (1, none)
    else
      let index := src.getD 0 0 % 256
      if ts.length ≤ index then .error ()
      else
        match rdVariant index ts (src.drop 1) with
        | .error e => .error e
        | .ok (used, p?) => .ok (1 + used, p?.map fun p => Val.variant index p)
termination_by t _ => (sizeOf t, 0)
decreasing_by
  all_goals simp_wf
  all_goals first
    | (apply Prod.Lex.left; omega)
    | (apply Prod.Lex.right; omega)

/-- The `Reader` loop of the tuple/composite serializers (`read_members`):
read each member at the current offset; `insufficient_buffer` is reported
as `(bytes_processed + required, none)`. -/
def rdList : List Ty → List Nat → Nat → Except Unit (Nat × Option (List Val))
  | [], _, pos => .ok (pos, some [])
  | t :: ts, src, pos =>
    let region := src.drop pos
    match rd t region with
    | .error e => .error e
    | .ok (used, v?) =>
      if region.length < used then .ok (pos + used, none)
      else
        match v? with
        | none => .ok (pos + used, none)
        | some v =>
          match rdList ts src (pos + used) with
          | .error e => .error e
          | .ok (p2, vs?) => .ok (p2, vs?.map fun vs => v :: vs)
termination_by ts _ _ => (sizeOf ts, 0)
decreasing_by
  all_goals simp_wf
  all_goals first
    | (apply Prod.Lex.left; omega)
    | (apply Prod.Lex.right; omega)

/-- The element loop of the container serializers (pushback.h and
associative.h): read `n` elements of the same element type. -/
def rdCount : Nat → Ty → List Nat → Nat → Except Unit (Nat × Option (List Val))
  | 0, _, _, pos => .ok (pos, some [])
  | n + 1, t, src, pos =>
    let region := src.drop pos
    match rd t region with
    | .error e => .error e
    | .ok (used, v?) =>
      if region.length < used then .ok (pos + used, none)
      else
        match v? with
        | none => .ok (pos + used, none)
        | some v =>
          match rdCount n t src (pos + used) with
          | .error e => .error e
          | .ok (p2, vs?) => .ok (p2, vs?.map fun vs => v :: vs)
termination_by n t _ _ => (sizeOf t, n + 1)
decreasing_by
  all_goals simp_wf
  all_goals first
    | (apply Prod.Lex.left; omega)
    | (apply Prod.Lex.right; omega)

/-- Model of `variant_reader<I, Ts...>`: walk to the alternative selected by the
discriminant and read it; running past the last alternative throws. -/
def rdVariant : Nat → List Ty → List Nat → Except Unit (Nat × Option Val)
  | _, [], _ => .error ()
  | 0, t :: _, src => rd t src
  | k + 1, _ :: ts, src => rdVariant k ts src
termination_by _ ts _ => (sizeOf ts, 0)
decreasing_by
  all_goals simp_wf
  all_goals first
    | (apply Prod.Lex.left; omega)
    | (apply Prod.Lex.right; omega)
end

/-- Classifies the serializers that check the full required size up front
and write nothing on insufficient capacity (everything except the
`Writer`-loop aggregates). -/
def isScalar : Val → Bool
  | .tup _ => false
  | .seq _ => false
  | _ => true

/-! ## The framed log (store.h)

The CRC primitives are external collaborators of the sources under
verification: `crc32c` comes from the external crc32c library and the
CRC16 table include (`crc16table.inc`) is not part of the sources, so both
are modelled from the spec. -/

/-- Modelled from the spec: one bit-shift step of CRC-16/XMODEM
(width=16 poly=0x1021 init=0x0000 refin=false refout=false xorout=0x0000,
the parameters documented in logkv/crc/crc16.h).  The table-driven
`crc16::xmodem` of the source computes this function; its table include
file is not available under the verified sources. -/
def crcShift16 : Nat → Nat → Nat
  | 0, c => c
  | n + 1, c =>
    crcShift16 n
      (if c.testBit 15 then ((c <<< 1) ^^^ 0x1021) &&& 0xFFFF else (c <<< 1) &&& 0xFFFF)

/-- Modelled from the spec: `crc16_xmodem(bytes) -> u16`. -/
def computeCRC16 (data : List Nat) : Nat :=
  data.foldl (fun crc b => crcShift16 8 (crc ^^^ ((b % 256) <<< 8))) 0

/-- Modelled from the spec: one bit-shift step of CRC-32C (Castagnoli),
reflected, polynomial 0x82F63B78. -/
def crcShift32 : Nat → Nat → Nat
  | 0, c => c
  | n + 1, c =>
    crcShift32 n (if c % 2 = 1 then (c >>> 1) ^^^ 0x82F63B78 else c >>> 1)

/-- Modelled from the spec: `crc32c(bytes) -> u32` (init and xorout
0xFFFFFFFF), as computed by the external crc32c library. -/
def computeCRC32 (data : List Nat) : Nat :=
  (data.foldl (fun crc b => crcShift32 8 (crc ^^^ (b % 256))) 0xFFFFFFFF) ^^^ 0xFFFFFFFF

/-- Model of `Store::MinCRC32PayloadSize` (store.h). -/
def MinCRC32PayloadSize : Nat := 512

/-- Model of `Store::MaxBufferSize` (store.h): maximum size of a single object,
frame, and internal buffer (512MB = 2^29). -/
def MaxBufferSize : Nat := 0x20000000

/-- The bytes `Store::writeFrame` emits for a (non-empty) payload: the
control byte (low 5 bits of the payload size, bit 5 the CRC choice, bits
6-7 the extra length byte count), the extra length bytes (little-endian),
the checksum over the payload (little-endian, CRC32C when selected,
CRC16/XMODEM otherwise), then the payload. -/
def frameBytes (forceCRC32 : Bool) (payload : List Nat) : List Nat :=
  let payloadSize := payload.length
  let isCRC32 := forceCRC32 || decide (MinCRC32PayloadSize ≤ payloadSize)
  let extra := payloadSize >>> 5
  let control := (payloadSize &&& 0x1F) |||
    (if isCRC32 then 0x20 else 0) |||
    (if extra = 0 then 0 else if extra ≤ 0xFF then 0x40
     else if extra ≤ 0xFFFF then 0x80 else 0xC0)
  let extraBytes : List Nat :=
    if extra = 0 then [] else if extra ≤ 0xFF then leBytes 1 extra
    else if extra ≤ 0xFFFF then leBytes 2 extra else leBytes 3 extra
  let crcBytes : List Nat :=
    if isCRC32 then leBytes 4 (computeCRC32 payload)
    else leBytes 2 (computeCRC16 payload)
  control :: (extraBytes ++ (crcBytes ++ payload))

/-- The write-side state of the `Store`: the reusable buffer (contents;
its length is `buffer_.size()`), the write offset, and the `forceCRC32_`
flag. -/
structure WSt where
  buffer : List Nat
  writeOffset : Nat
  forceCRC32 : Bool

/-- Model of `Store::writeFrame`: nothing happens at write offset zero; otherwise
the frame for the first `writeOffset` buffer bytes is appended to the file
and the offset is reset.  `fwriteOk` injects the fwrite/fflush failure
(the thrown "file write error"). -/
def writeFrame (fwriteOk : Bool) (st : WSt) (file : List Nat) :
    Except Unit (WSt × List Nat) :=
  if st.writeOffset = 0 then .ok (st, file)
  else if fwriteOk then
    .ok ({ st with writeOffset := 0 },
      file ++ frameBytes st.forceCRC32 (st.buffer.take st.writeOffset))
  else .error ()

/-- Model of `Store::ReadResult` (store.h). -/
inductive ReadResult where
  | success
  | frameEOF
  | frameUnderflow
  | frameCorrupted
  | objectCorrupted
deriving DecidableEq

/-- Model of `Store::readFrame` over the remaining file bytes: returns the result
code and, on success, the payload now held in the buffer's read window
(`writeOffset_ := payloadSize`, `readOffset_ := 0`) and the unread rest of
the file.  On failure the payload/rest components are unused by the
callers and are returned empty. -/
def readFrame (file : List Nat) : ReadResult × List Nat × List Nat :=
  match file with
  | [] => (.frameEOF, [], [])
  | control :: rest =>
    let extraLenBytes := (control >>> 6) &&& 0x03
    let isCRC32 : Bool := control &&& 0x20 != 0
    let crcBytes := if isCRC32 then 4 else 2
    let remainingHeaderSize := extraLenBytes + crcBytes
    if rest.length < remainingHeaderSize then (.frameUnderflow, [], [])
    else
      let headerBuf := rest.take remainingHeaderSize
      let extraValue := leVal (headerBuf.take extraLenBytes)
      let payloadSize :=
        if 0 < extraLenBytes then (control &&& 0x1F) ||| (extraValue <<< 5)
        else control &&& 0x1F
      let diskCRC := leVal (headerBuf.drop extraLenBytes)
      let rest2 := rest.drop remainingHeaderSize
      if rest2.length < payloadSize then (.frameUnderflow, [], [])
      else
        let payload := rest2.take payloadSize
        if isCRC32 then
          if computeCRC32 payload != diskCRC then (.frameCorrupted, [], [])
          else (.success, payload, rest2.drop payloadSize)
        else
          if computeCRC16 payload != diskCRC % 0x10000 then (.frameCorrupted, [], [])
          else (.success, payload, rest2.drop payloadSize)

/-- The buffer-growth loop of `Store::writeObject`: starting from
`targetSz` (the code starts it at `buffer_.size() * 2`), double until it
reaches `used`.  The C++ loop does not terminate when `targetSz` is zero;
the `Store` constructor never validates the buffer size, but the claims
are stated for the non-degenerate positive-size states, and the model
returns `targetSz` in the degenerate case. -/
def growSize (targetSz used : Nat) : Nat :=
  if h : 0 < targetSz ∧ targetSz < used then growSize (targetSz * 2) used
  else targetSz
termination_by used - targetSz
decreasing_by omega

/-- Model of `std::vector::resize`: keep the first `sz` bytes, extend with zeroes
(value-initialised `char`s). -/
def resizeTo (buf : List Nat) (sz : Nat) : List Nat :=
  buf.take sz ++ List.replicate (sz - buf.length) 0

/-- Model of `Store::writeObject`, fuelled (the C++ recursion has no fuel; every
claim supplies enough fuel for the recursion to finish).  The serializer
writes into the region past the write offset; on overflow (`used > avail`)
the buffered content is framed out, the buffer is doubled while smaller
than `used` (only when it is smaller), and the write is retried. -/
def writeObjectF (fwriteOk : Bool) : Nat → Val → WSt → List Nat →
    Except Unit (Nat × WSt × List Nat)
  | 0, _, _, _ => .error ()
  | fuel + 1, v, st, file =>
    match wr v (st.buffer.drop st.writeOffset) with
    | .error e => .error e
    | .ok (used, region2) =>
      let buf2 := st.buffer.take st.writeOffset ++ region2
      if st.buffer.length - st.writeOffset < used then
        match writeFrame fwriteOk { st with buffer := buf2 } file with
        | .error e => .error e
        | .ok (st1, file1) =>
          let st2 :=
            if st1.buffer.length < used then
              { st1 with
                buffer := resizeTo st1.buffer (growSize (st1.buffer.length * 2) used) }
            else st1
          writeObjectF fwriteOk fuel v st2 file1
      else
        .ok (used, { st with buffer := buf2, writeOffset := st.writeOffset + used },
          file)

mutual
/-- Equality of serialized values (the C++ key comparison; `std::map` keys
compare with the key type's ordering, which agrees with equality of
the modelled values). -/
def veq : Val → Val → Bool
  | .uint w v, .uint w2 v2 => w == w2 && v == v2
  | .varUint b v, .varUint b2 v2 => b == b2 && v == v2
  | .bytes bs, .bytes bs2 => bs == bs2
  | .fixedBytes bs, .fixedBytes bs2 => bs == bs2
  | .tup vs, .tup vs2 => veqList vs vs2
  | .seq vs, .seq vs2 => veqList vs vs2
  | .variant i p, .variant i2 p2 => i == i2 && veq p p2
  | _, _ => false
termination_by v _ => (sizeOf v, 0)
decreasing_by
  all_goals simp_wf
  all_goals first
    | (apply Prod.Lex.left; omega)
    | (apply Prod.Lex.right; omega)

def veqList : List Val → List Val → Bool
  | [], [] => true
  | v :: vs, w :: ws => veq v w && veqList vs ws
  | _, _ => false
termination_by vs _ => (sizeOf vs, 0)
decreasing_by
  all_goals simp_wf
  all_goals first
    | (apply Prod.Lex.left; omega)
    | (apply Prod.Lex.right; omega)
end

/-- Model of `objects_.find(key)`: association-list lookup. -/
def lookupA : List (Val × Val) → Val → Option Val
  | [], _ => none
  | (k, v) :: m, key => if veq k key then some v else lookupA m key

/-- Model of `objects_.erase(it)`: remove the entry for a key. -/
def eraseA : List (Val × Val) → Val → List (Val × Val)
  | [], _ => []
  | (k, v) :: m, key => if veq k key then m else (k, v) :: eraseA m key

/-- Model of `objects_[key] = value` / `it->second = value`: set a key's value,
inserting when the key is absent. -/
def setA : List (Val × Val) → Val → Val → List (Val × Val)
  | [], key, val => [(key, val)]
  | (k, v) :: m, key, val =>
    if veq k key then (k, val) :: m else (k, v) :: setA m key val

/-- No key of the map holds a value that `is_empty` accepts (the store
invariant of claim C10). -/
def noEmpty (m : List (Val × Val)) : Bool := m.all (fun p => ! is_empty p.2)

/-- The read-side state threaded through `replay`: the unread part of the
current frame's payload (`buffer_[readOffset_..writeOffset_)`) and the
unread rest of the file. -/
structure RSt where
  window : List Nat
  file : List Nat

/-- The decode part of `Store::readObject` after any frame refill. -/
def readObjectBody (t : Ty) (cur : Val) (r : RSt) :
    Except Unit (ReadResult × Val × RSt) :=
  match rd t r.window with
  | .error e => .error e
  | .ok (used, v?) =>
    if r.window.length < used then .ok (.objectCorrupted, cur, r)
    else .ok (.success, v?.getD cur, ⟨r.window.drop used, r.file⟩)

/-- Model of `Store::readObject`: refill the buffer with the next frame when the
window is empty, decode one object from the window.  `cur` is the current
contents of the out-parameter; on the sentinel paths the C++ out-parameter
keeps its old value (an existing map value may in reality be partially
overwritten by a failing in-place read; no claim depends on the value left
behind by a failing read).  `.error` models thrown decode errors. -/
def readObjectR (t : Ty) (cur : Val) (r : RSt) :
    Except Unit (ReadResult × Val × RSt) :=
  if r.window.isEmpty then
    match readFrame r.file with
    | (.success, payload, rest) => readObjectBody t cur ⟨payload, rest⟩
    | (res, _, _) => .ok (res, cur, r)
  else readObjectBody t cur r

/-- Model of `Store::replay`, fuelled (each iteration consumes one fuel unit; the
claims supply enough fuel).  `kt`/`vt` are the key/value types, `kdef` and
`vdef` the default-constructed key and value of the C++ loop locals.
Returns the C++ boolean result and the map contents: `false` covers every
non-success read result and every caught exception. -/
def replayLoop (kt vt : Ty) (kdef vdef : Val) :
    Nat → List (Val × Val) → RSt → Bool × List (Val × Val)
  | 0, objects, _ => (false, objects)
  | fuel + 1, objects, r =>
    match (if r.window.isEmpty then
            match readFrame r.file with
            | (res, payload, rest) => (res, (⟨payload, rest⟩ : RSt))
          else (.success, r) : ReadResult × RSt) with
    | (.frameEOF, _) => (true, objects)
    | (.success, r1) =>
      match readObjectR kt kdef r1 with
      | .error _ => (false, objects)
      | .ok (kres, key, r2) =>
        if kres = .success then
          match lookupA objects key with
          | some cur =>
            match readObjectR vt cur r2 with
            | .error _ => (false, objects)
            | .ok (vres, value, r3) =>
              if vres = .success then
                if is_empty value then
                  replayLoop kt vt kdef vdef fuel (eraseA objects key) r3
                else replayLoop kt vt kdef vdef fuel (setA objects key value) r3
              else (false, objects)
          | none =>
            match readObjectR vt vdef r2 with
            | .error _ => (false, objects)
            | .ok (vres, value, r3) =>
              if vres = .success then
                if is_empty value then replayLoop kt vt kdef vdef fuel objects r3
                else replayLoop kt vt kdef vdef fuel (setA objects key value) r3
              else (false, objects)
        else (false, objects)
    | (_, _) => (false, objects)

/-- The observable `Store` state: the K,V map `objects_`, whether the
events file handle `events_` is non-null, `loaded_`, the generation
counter `time_`, and `forceCRC32_`.  The scratch I/O buffer
(`buffer_`/`writeOffset_`/`readOffset_`) is the `WSt` of the framing
layer and is threaded separately where an operation serializes. -/
structure StoreM where
  objects : List (Val × Val)
  eventsOpen : Bool
  loaded : Bool
  time : Nat
  forceCRC32 : Bool

/-- The store directory: `.snapshot` files, `.events` files (generation
number to contents; the all-digit 20-character zero-padded stems make the
C++ lexicographic path order the numeric order), and the number of
`tmp_snapshot_*` files present (their names and contents are never read
by any modelled operation). -/
structure DirM where
  snaps : List (Nat × List Nat)
  evs : List (Nat × List Nat)
  temps : Nat

/-- Model of `Store::writeUpdate`: write the key object, then the value object. -/
def writeUpdateF (fwriteOk : Bool) (fuel : Nat) (k v : Val) (w : WSt)
    (file : List Nat) : Except Unit (WSt × List Nat) :=
  match writeObjectF fwriteOk fuel k w file with
  | .error e => .error e
  | .ok (_, w1, file1) =>
    match writeObjectF fwriteOk fuel v w1 file1 with
    | .error e => .error e
    | .ok (_, w2, file2) => .ok (w2, file2)

/-- The entry loop of `Store::writeSnapshot`:
`for (auto& [k, v] : objects_) writeUpdate(sf, k, v);` — every entry is
written, with no emptiness filter. -/
def snapshotLoop (fwriteOk : Bool) (fuel : Nat) :
    List (Val × Val) → WSt → List Nat → Except Unit (WSt × List Nat)
  | [], w, file => .ok (w, file)
  | (k, v) :: rest, w, file =>
    match writeUpdateF fwriteOk fuel k v w file with
    | .error e => .error e
    | .ok (w1, file1) => snapshotLoop fwriteOk fuel rest w1 file1

/-- The write phase of `Store::writeSnapshot`: reset the write offset,
write every entry, flush the pending frame.  Returns the temp file's
contents; `.error` is any thrown write/serialization error (after which
`save` removes the temp file). -/
def writeSnapshotE (fwriteOk : Bool) (fuel : Nat) (objects : List (Val × Val))
    (buffer : List Nat) (force : Bool) : Except Unit (List Nat) :=
  match snapshotLoop fwriteOk fuel objects ⟨buffer, 0, force⟩ [] with
  | .error e => .error e
  | .ok (w1, file1) =>
    match writeFrame fwriteOk w1 file1 with
    | .error e => .error e
    | .ok (_, file2) => .ok file2

/-- Model of `Store::openEventsFile` on the directory: `fopen(..., "ab+")` creates
the generation's events file when absent and keeps it when present. -/
def openEventsFileM (evs : List (Nat × List Nat)) (gen : Nat) :
    List (Nat × List Nat) :=
  if evs.any (fun p => p.1 == gen) then evs else (gen, []) :: evs

/-- Model of `Store::save` (SyncSave; the fork path is POSIX-specific and outside
the claims): require `loaded_`; close the events handle; write the
snapshot into a fresh temp file; on write failure remove the temp file
and rethrow (the `.error` payload is the store and directory state left
behind); on success rename the temp to `{time+1}.snapshot`, advance
`time_`, open the new events file, and delete all `.events`/`.snapshot`
files with a generation below the new snapshot's. -/
def saveE (fwriteOk : Bool) (fuel : Nat) (buffer : List Nat) (st : StoreM)
    (dir : DirM) : Except (StoreM × DirM) (StoreM × DirM) :=
  if st.loaded = false then .error (st, dir)
  else
    let st1 := { st with eventsOpen := false }
    let snapshotTime := st.time + 1
    let dirT := { dir with temps := dir.temps + 1 }
    match writeSnapshotE fwriteOk fuel st.objects buffer st.forceCRC32 with
    | .error _ => .error (st1, { dirT with temps := dirT.temps - 1 })
    | .ok contents =>
      let dir1 := { dirT with
        temps := dirT.temps - 1
        snaps := (snapshotTime, contents) :: dirT.snaps }
      let st2 := { st1 with
        time := snapshotTime
        eventsOpen := true }
      let dir2 := { dir1 with evs := openEventsFileM dir1.evs snapshotTime }
      .ok (st2, { dir2 with
        snaps := dir2.snaps.filter (fun p => decide (snapshotTime ≤ p.1))
        evs := dir2.evs.filter (fun p => decide (snapshotTime ≤ p.1)) })

/-- Model of `Store::update`: write the (key, value) event to the open events
file, then set the mapping — also when the value is empty. -/
def updateM (fwriteOk : Bool) (fuel : Nat) (st : StoreM) (w : WSt)
    (eventsFile : List Nat) (k v : Val) :
    Except Unit (StoreM × WSt × List Nat) :=
  match writeUpdateF fwriteOk fuel k v w eventsFile with
  | .error e => .error e
  | .ok (w1, file1) => .ok ({ st with objects := setA st.objects k v }, w1, file1)

/-- The snapshot pick of `Store::load`: the greatest generation among the
`.snapshot` files (the C++ sorts the zero-padded paths and takes the
last). -/
def pickLatest : List (Nat × List Nat) → Option (Nat × List Nat)
  | [] => none
  | (g, c) :: rest =>
    match pickLatest rest with
    | none => some (g, c)
    | some (g2, c2) => if g2 ≤ g then some (g, c) else some (g2, c2)

/-- Insertion into a generation-sorted file list. -/
def insertByGen (p : Nat × List Nat) :
    List (Nat × List Nat) → List (Nat × List Nat)
  | [] => [p]
  | q :: rest => if p.1 ≤ q.1 then p :: q :: rest else q :: insertByGen p rest

/-- Model of `std::sort(eventTimes...)`: ascending generation order. -/
def sortByGen : List (Nat × List Nat) → List (Nat × List Nat)
  | [] => []
  | p :: rest => insertByGen p (sortByGen rest)

/-- The event-file loop of `Store::load`: for each event file in
ascending generation order, flag a corruption when its generation is not
the expected one; replay it; when the replay fails unlink the file and
flag a corruption, otherwise advance `time_` to its generation; the
expected generation becomes the file's generation plus one.  Returns the
unlinked generations, the corruption flag, the final `time_` and the
final map. -/
def processEvents (kt vt : Ty) (kdef vdef : Val) (fuel : Nat) :
    List (Nat × List Nat) → Nat → Nat → List (Val × Val) →
    List Nat × Bool × Nat × List (Val × Val)
  | [], _, time, objects => ([], false, time, objects)
  | (gen, contents) :: rest, expected, time, objects =>
    match replayLoop kt vt kdef vdef fuel objects ⟨[], contents⟩ with
    | (true, objects1) =>
      let r := processEvents kt vt kdef vdef fuel rest (gen + 1) gen objects1
      (r.1, (decide (gen ≠ expected) || r.2.1, r.2.2))
    | (false, objects1) =>
      let r := processEvents kt vt kdef vdef fuel rest (gen + 1) time objects1
      (gen :: r.1, (true, r.2.2))

/-- Model of `Store::load`: pick the newest snapshot (if any) and restore the map
from it (a failed snapshot replay throws — `.error`); enumerate the
`.events` files with generation at least the snapshot's, in ascending
order; run the event-file loop; mark loaded; when corruption was seen,
take a synchronous snapshot (whose own failure propagates); open the
current generation's events file; return `!corrupted`. -/
def loadF (kt vt : Ty) (kdef vdef : Val) (fwriteOk : Bool) (fuel : Nat)
    (buffer : List Nat) (st : StoreM) (dir : DirM) :
    Except Unit (Bool × StoreM × DirM) :=
  match (match pickLatest dir.snaps with
         | some (g, contents) =>
           match replayLoop kt vt kdef vdef fuel [] ⟨[], contents⟩ with
           | (true, objs) => some (g, objs)
           | (false, _) => none
         | none => some (0, ([] : List (Val × Val)))) with
  | none => .error ()
  | some (time0, objects0) =>
    let files := sortByGen (dir.evs.filter (fun p => decide (time0 ≤ p.1)))
    let r := processEvents kt vt kdef vdef fuel files time0 time0 objects0
    let removed := r.1
    let corrupted := r.2.1
    let time1 := r.2.2.1
    let objects1 := r.2.2.2
    let dir1 := { dir with evs := dir.evs.filter (fun p => ! removed.contains p.1) }
    let st1 := { st with
      objects := objects1
      time := time1
      loaded := true }
    if corrupted then
      match saveE fwriteOk fuel buffer st1 dir1 with
      | .error _ => .error ()
      | .ok (st2, dir2) =>
        .ok (false, { st2 with eventsOpen := true },
          { dir2 with evs := openEventsFileM dir2.evs st2.time })
    else
      .ok (true, { st1 with eventsOpen := true },
        { dir1 with evs := openEventsFileM dir1.evs time1 })

/-- Modelled from the spec (§4.3, `load()` step 4): the accumulator of
the spec's event-file loop — the corruption flag, the expected and
current generations, the map, and the unlinked files. -/
structure SpecLoadAcc where
  corrupted : Bool
  expected : Nat
  generation : Nat
  objects : List (Val × Val)
  unlinked : List Nat

/-- Modelled from the spec (§4.3, `load()` step 4): "For each event file
in order: if its generation ≠ expected, record `corrupted=true` (gap or
overlap).  Replay frames; on frame corruption, unlink the file and set
`corrupted=true`.  On success, update `generation := file.gen`.  Advance
expected := file.gen + 1." -/
def specEventStep (kt vt : Ty) (kdef vdef : Val) (fuel : Nat)
    (acc : SpecLoadAcc) (f : Nat × List Nat) : SpecLoadAcc :=
  let corrupted1 := acc.corrupted || decide (f.1 ≠ acc.expected)
  match replayLoop kt vt kdef vdef fuel acc.objects ⟨[], f.2⟩ with
  | (false, objs) => ⟨true, f.1 + 1, acc.generation, objs, acc.unlinked ++ [f.1]⟩
  | (true, objs) => ⟨corrupted1, f.1 + 1, f.1, objs, acc.unlinked⟩

/-- Modelled from the spec (§4.3, the `load()` algorithm, steps 1-5):
pick the greatest snapshot generation and restore from it (a failed
snapshot replay is fatal), otherwise start empty at generation zero;
fold the event-file loop over the `.events` files with generation at
least the snapshot's in ascending order; mark loaded; on corruption take
a synchronous snapshot; open the current generation's event log; return
whether no corruption was seen. -/
def specLoadM (kt vt : Ty) (kdef vdef : Val) (fwriteOk : Bool) (fuel : Nat)
    (buffer : List Nat) (st : StoreM) (dir : DirM) :
    Except Unit (Bool × StoreM × DirM) :=
  match (match pickLatest dir.snaps with
         | some (g, contents) =>
           match replayLoop kt vt kdef vdef fuel [] ⟨[], contents⟩ with
           | (true, objs) => some (g, objs)
           | (false, _) => none
         | none => some (0, ([] : List (Val × Val)))) with
  | none => .error ()
  | some (gs, objects0) =>
    let files := sortByGen (dir.evs.filter (fun p => decide (gs ≤ p.1)))
    let acc := files.foldl (specEventStep kt vt kdef vdef fuel)
      ⟨false, gs, gs, objects0, []⟩
    let dir1 := { dir with
      evs := dir.evs.filter (fun p => ! acc.unlinked.contains p.1) }
    let st1 := { st with
      objects := acc.objects
      time := acc.generation
      loaded := true }
    if acc.corrupted then
      match saveE fwriteOk fuel buffer st1 dir1 with
      | .error _ => .error ()
      | .ok (st2, dir2) =>
        .ok (false, { st2 with eventsOpen := true },
          { dir2 with evs := openEventsFileM dir2.evs st2.time })
    else
      .ok (true, { st1 with eventsOpen := true },
        { dir1 with evs := openEventsFileM dir1.evs acc.generation })

/-! ## Theorems -/

theorem leBytes_length (n v : Nat) : (leBytes n v).length = n := by
  induction n generalizing v with
  | zero => rfl
  | succ n ih => simp [leBytes, ih]

theorem beBytes_length (n v : Nat) : (beBytes n v).length = n := by
  simp [beBytes, leBytes_length]

theorem leBytes_lt (n v : Nat) : ∀ b ∈ leBytes n v, b < 256 := by
  induction n generalizing v with
  | zero => simp [leBytes]
  | succ n ih =>
    intro b hb
    simp only [leBytes, List.mem_cons] at hb
    rcases hb with h | h
    · omega
    · exact ih _ _ h

theorem leVal_leBytes (n v : Nat) (h : v < 256 ^ n) : leVal (leBytes n v) = v := by
  induction n generalizing v with
  | zero => simp [leBytes, leVal]; omega
  | succ n ih =>
    have hdiv : v / 256 < 256 ^ n := by
      rw [Nat.div_lt_iff_lt_mul (by norm_num)]
      calc v < 256 ^ (n + 1) := h
        _ = 256 ^ n * 256 := by ring
    simp [leBytes, leVal, ih _ hdiv]
    omega

theorem leVal_lt (l : List Nat) : leVal l < 256 ^ l.length := by
  induction l with
  | nil => simp [leVal]
  | cons b rest ih =>
    simp only [leVal, List.length_cons]
    have : b % 256 < 256 := Nat.mod_lt _ (by norm_num)
    calc b % 256 + 256 * leVal rest < 256 + 256 * leVal rest := by omega
      _ = 256 * (1 + leVal rest) := by ring
      _ ≤ 256 * 256 ^ rest.length := by
        have := ih; exact Nat.mul_le_mul_left _ (by omega)
      _ = 256 ^ (rest.length + 1) := by ring

/-- Bit-shift of an all-ones value: used to simplify the VarUint overflow
check `std::numeric_limits<T>::max() >> shift`. -/
theorem two_pow_sub_one_shiftRight (a b : Nat) : (2 ^ a - 1) >>> b = 2 ^ (a - b) - 1 := by
  apply Nat.eq_of_testBit_eq
  intro i
  simp only [Nat.testBit_shiftRight, Nat.testBit_two_pow_sub_one]
  exact decide_eq_decide.mpr (by omega)

theorem and_127_eq_mod (x : Nat) : x &&& 0x7F = x % 0x80 := by
  have h := Nat.and_pow_two_sub_one_eq_mod x 7
  norm_num at h
  exact h

theorem and_128_of_lt {x : Nat} (h : x < 0x80) : x &&& 0x80 = 0 := by
  apply Nat.eq_of_testBit_eq
  intro i
  simp only [Nat.testBit_and, Nat.zero_testBit]
  rcases eq_or_ne i 7 with rfl | hne
  · have hx : x.testBit 7 = false := Nat.testBit_lt_two_pow (by norm_num; omega)
    simp [hx]
  · have h2 : (0x80 : Nat) = 2 ^ 7 := by norm_num
    have hp : ((2 : Nat) ^ 7).testBit i = false := Nat.testBit_two_pow_of_ne (Ne.symm hne)
    rw [h2, hp, Bool.and_false]

theorem add_128_and_128 {x : Nat} (h : x < 0x80) : (x + 0x80) &&& 0x80 = 0x80 := by
  apply Nat.eq_of_testBit_eq
  intro i
  simp only [Nat.testBit_and]
  have h2 : (0x80 : Nat) = 2 ^ 7 := by norm_num
  rcases eq_or_ne i 7 with rfl | hne
  · have hx : (x + 0x80).testBit 7 = true := by
      rw [show x + 0x80 = 2 ^ 7 + x by omega, Nat.testBit_two_pow_add_eq,
        Nat.testBit_lt_two_pow (by norm_num; omega)]
      rfl
    rw [hx, h2, Nat.testBit_two_pow_self]
    rfl
  · have hp : ((2 : Nat) ^ 7).testBit i = false := Nat.testBit_two_pow_of_ne (Ne.symm hne)
    rw [h2, hp, Bool.and_false]

/-- Under `b < 256` (a byte), the continuation-bit test of VarUint read:
`b &&& 0x80 = 0` exactly when the byte is below `0x80`. -/
theorem and_128_eq_zero_iff {b : Nat} (hb : b < 256) : b &&& 0x80 = 0 ↔ b < 0x80 := by
  constructor
  · intro h
    by_contra hge
    have hx : b - 0x80 < 0x80 := by omega
    have := add_128_and_128 hx
    rw [show b - 0x80 + 0x80 = b by omega] at this
    omega
  · exact and_128_of_lt

/-- Merging a low fragment with a shifted value: `a ||| (b <<< n) = a + b * 2 ^ n`
when `a < 2 ^ n`.  Used to reason about `result |= part << shift`. -/
theorem lor_shiftLeft_eq_add {a b n : Nat} (h : a < 2 ^ n) :
    a ||| (b <<< n) = a + b * 2 ^ n := by
  rw [Nat.shiftLeft_eq, Nat.lor_comm, Nat.mul_comm b, ← Nat.mul_add_lt_is_or h b]
  ring

theorem varEnc_length (v : Nat) : (varEnc v).length = varSize v := by
  induction v using Nat.strong_induction_on with
  | _ v ih =>
    rw [varEnc]
    by_cases h : v < 0x80
    · rw [dif_pos h]
      rcases Nat.eq_zero_or_pos v with rfl | hv
      · simp [varSize]
      · have h1 : 0 < bit_width v := Nat.size_pos.mpr hv
        have h2 : bit_width v ≤ 7 := Nat.size_le.mpr (by omega)
        simp only [List.length_cons, List.length_nil, varSize]
        rw [if_neg (by omega)]
        omega
    · rw [dif_neg h]
      push_neg at h
      have hd : v / 0x80 < v := Nat.div_lt_self (by omega) (by norm_num)
      have ihd := ih _ hd
      simp only [List.length_cons, ihd]
      have hs7 : 7 < Nat.size v := Nat.lt_size.mpr (by norm_num; omega)
      have hsize : Nat.size (v / 0x80) = Nat.size v - 7 := by
        apply le_antisymm
        · apply Nat.size_le.mpr
          rw [Nat.div_lt_iff_lt_mul (by norm_num : (0 : Nat) < 0x80)]
          calc v < 2 ^ Nat.size v := Nat.lt_size_self v
            _ = 2 ^ (Nat.size v - 7) * 0x80 := by
                rw [show (0x80 : Nat) = 2 ^ 7 by norm_num, ← pow_add]
                congr 1
                omega
        · have hlow : 2 ^ (Nat.size v - 1) ≤ v := Nat.lt_size.mp (by omega)
          have : 2 ^ (Nat.size v - 8) ≤ v / 0x80 := by
            rw [Nat.le_div_iff_mul_le (by norm_num : (0 : Nat) < 0x80)]
            calc 2 ^ (Nat.size v - 8) * 0x80 = 2 ^ (Nat.size v - 1) := by
                  rw [show (0x80 : Nat) = 2 ^ 7 by norm_num, ← pow_add]
                  congr 1
                  omega
              _ ≤ v := hlow
          have := Nat.lt_size.mpr this
          omega
      have hvd : v / 0x80 ≠ 0 := by
        have : 1 ≤ v / 0x80 := (Nat.one_le_div_iff (by norm_num)).mpr (by omega)
        omega
      have hv : v ≠ 0 := by omega
      simp only [varSize, if_neg hvd, if_neg hv, bit_width, hsize]
      have heq : Nat.size v + 6 = (Nat.size v - 7 + 6) + 7 := by omega
      rw [heq, Nat.add_div_right _ (by norm_num)]

theorem varEnc_bytes_lt (v : Nat) : ∀ b ∈ varEnc v, b < 256 := by
  induction v using Nat.strong_induction_on with
  | _ v ih =>
    rw [varEnc]
    by_cases h : v < 0x80
    · rw [dif_pos h]
      intro b hb
      simp only [List.mem_singleton] at hb
      omega
    · rw [dif_neg h]
      intro b hb
      simp only [List.mem_cons] at hb
      rcases hb with rfl | hb
      · have : v % 0x80 < 0x80 := Nat.mod_lt _ (by norm_num)
        omega
      · exact ih (v / 0x80) (Nat.div_lt_self (by omega) (by norm_num)) _ hb

theorem varSize_pos (v : Nat) : 1 ≤ varSize v := by
  rw [varSize]
  split
  · exact le_refl 1
  · next h =>
    have : 1 ≤ bit_width v := Nat.size_pos.mpr (Nat.pos_of_ne_zero h)
    omega

theorem varSize_le_maxBytes {bits v : Nat} (hb : 0 < bits) (hv : v < 2 ^ bits) :
    varSize v ≤ (bits + 6) / 7 := by
  rw [varSize]
  split
  · omega
  · have hsz : bit_width v ≤ bits := Nat.size_le.mpr hv
    exact Nat.div_le_div_right (by omega)

theorem varSize_of_ge (v : Nat) (h : 0x80 ≤ v) :
    varSize v = 1 + varSize (v / 0x80) := by
  rw [← varEnc_length, ← varEnc_length, varEnc, dif_neg (by omega)]
  simp [Nat.add_comm]

/-- Round-trip of the VarUint read loop over the write loop's output, with
the loop invariants generalized. -/
theorem varReadAux_enc (bits : Nat) : ∀ v rest i acc,
    v < 2 ^ (bits - 7 * i) → i + varSize v ≤ (bits + 6) / 7 → acc < 2 ^ (7 * i) →
    varReadAux bits (varEnc v ++ rest) i (7 * i) acc =
      .ok (i + varSize v, some (acc + v * 2 ^ (7 * i))) := by
  intro v
  induction v using Nat.strong_induction_on with
  | _ v ih =>
    intro rest i acc hv hsz hacc
    have hchk : ¬ ((bits + 6) / 7 ≤ i) := by
      have := varSize_pos v
      omega
    by_cases h : v < 0x80
    · rw [varEnc, dif_pos h]
      simp only [List.cons_append, varReadAux, if_neg hchk]
      rw [and_127_eq_mod, Nat.mod_eq_of_lt h]
      rw [two_pow_sub_one_shiftRight, if_neg (by omega)]
      rw [and_128_of_lt h, if_pos rfl]
      rw [lor_shiftLeft_eq_add hacc]
      have hone : varSize v = 1 := by
        rw [← varEnc_length, varEnc, dif_pos h]
        rfl
      rw [hone]
    · rw [varEnc, dif_neg h]
      push_neg at h
      simp only [List.cons_append, varReadAux, if_neg hchk]
      have hmod : v % 0x80 < 0x80 := Nat.mod_lt _ (by norm_num)
      rw [and_127_eq_mod, Nat.add_mod_right, Nat.mod_mod_of_dvd v dvd_rfl]
      rw [two_pow_sub_one_shiftRight]
      have hbig : 8 ≤ bits - 7 * i := by
        by_contra hlt
        have : (2 : Nat) ^ (bits - 7 * i) ≤ 2 ^ 7 :=
          Nat.pow_le_pow_right (by norm_num) (by omega)
        norm_num at this
        omega
      rw [if_neg (by
        have : (128 : Nat) ≤ 2 ^ (bits - 7 * i) := by
          calc (128 : Nat) = 2 ^ 7 := by norm_num
            _ ≤ 2 ^ (bits - 7 * i) := Nat.pow_le_pow_right (by norm_num) (by omega)
        omega)]
      rw [if_neg (by rw [add_128_and_128 hmod]; norm_num)]
      rw [lor_shiftLeft_eq_add hacc]
      have hd : v / 0x80 < v := Nat.div_lt_self (by omega) (by norm_num)
      have hrec := ih (v / 0x80) hd rest (i + 1) (acc + v % 0x80 * 2 ^ (7 * i))
      have h7 : 7 * (i + 1) = 7 * i + 7 := by ring
      have hv' : v / 0x80 < 2 ^ (bits - 7 * (i + 1)) := by
        rw [Nat.div_lt_iff_lt_mul (by norm_num : (0 : Nat) < 0x80)]
        calc v < 2 ^ (bits - 7 * i) := hv
          _ = 2 ^ (bits - 7 * (i + 1)) * 0x80 := by
            rw [show (0x80 : Nat) = 2 ^ 7 by norm_num, ← pow_add]
            congr 1
            omega
      have hsz' : (i + 1) + varSize (v / 0x80) ≤ (bits + 6) / 7 := by
        have := varSize_of_ge v h
        omega
      have hacc' : acc + v % 0x80 * 2 ^ (7 * i) < 2 ^ (7 * (i + 1)) := by
        rw [h7, pow_add]
        have h1 : v % 0x80 * 2 ^ (7 * i) ≤ 127 * 2 ^ (7 * i) :=
          Nat.mul_le_mul_right _ (by omega)
        have h2 : (2 : Nat) ^ 7 = 128 := by norm_num
        nlinarith [pow_pos (show (0 : Nat) < 2 by norm_num) (7 * i)]
      rw [h7] at hrec
      simp only [List.append_eq]
      rw [hrec hv' hsz' hacc']
      have hval : acc + v % 0x80 * 2 ^ (7 * i) + v / 0x80 * 2 ^ (7 * i + 7) =
          acc + v * 2 ^ (7 * i) := by
        have : v % 0x80 + 0x80 * (v / 0x80) = v := Nat.mod_add_div v 0x80
        calc acc + v % 0x80 * 2 ^ (7 * i) + v / 0x80 * 2 ^ (7 * i + 7)
            = acc + (v % 0x80 + 0x80 * (v / 0x80)) * 2 ^ (7 * i) := by
              rw [pow_add]
              ring
          _ = acc + v * 2 ^ (7 * i) := by rw [this]
      rw [hval]
      have := varSize_of_ge v h
      have : i + 1 + varSize (v / 0x80) = i + varSize v := by omega
      rw [this]

/-- Round-trip: reading back the VarUint encoding of any in-range value
consumes exactly `varSize v` bytes and recovers `v`; trailing bytes are not
touched. -/
theorem varRead_enc {bits v : Nat} (hb : 0 < bits) (hv : v < 2 ^ bits) (rest : List Nat) :
    varRead bits (varEnc v ++ rest) = .ok (varSize v, some v) := by
  have := varReadAux_enc bits v rest 0 0 (by simpa using hv)
    (by simpa using varSize_le_maxBytes hb hv) (by norm_num)
  simpa using this

/-- Soundness of the VarUint read loop: a successful decode stops at the first
terminator byte (high bit clear), stays within the per-type byte limit
`(bits + 6) / 7`, and yields the base-128 value of the consumed prefix, which
is at most `2 ^ bits - 1`. -/
theorem varReadAux_sound (bits : Nat) : ∀ (src : List Nat) (i shift acc u v : Nat),
    varReadAux bits src i shift acc = .ok (u, some v) →
    acc < 2 ^ shift → acc ≤ 2 ^ bits - 1 →
    ∃ t, t < src.length ∧ u = i + t + 1 ∧ i + t + 1 ≤ (bits + 6) / 7 ∧
      (∀ j, j < t → src.getD j 0 &&& 0x80 ≠ 0) ∧ src.getD t 0 &&& 0x80 = 0 ∧
      v = acc + varVal (src.take (t + 1)) * 2 ^ shift ∧ v ≤ 2 ^ bits - 1 := by
  intro src
  induction src with
  | nil =>
    intro i shift acc u v h
    simp [varReadAux] at h
  | cons b rest ih =>
    intro i shift acc u v h hacc haccM
    rw [varReadAux] at h
    by_cases hchk : (bits + 6) / 7 ≤ i
    · rw [if_pos hchk] at h
      exact absurd h (by simp)
    · rw [if_neg hchk] at h
      dsimp only at h
      by_cases hpart : (2 ^ bits - 1) >>> shift < b &&& 0x7F
      · rw [if_pos hpart] at h
        exact absurd h (by simp)
      · rw [if_neg hpart] at h
        push_neg at hpart
        rw [two_pow_sub_one_shiftRight, and_127_eq_mod] at hpart
        rw [and_127_eq_mod, lor_shiftLeft_eq_add hacc] at h
        have hmod : b % 0x80 < 0x80 := Nat.mod_lt _ (by norm_num)
        have hself : acc + b % 0x80 * 2 ^ shift ≤ 2 ^ bits - 1 := by
          by_cases hsb : shift ≤ bits
          · have hsplit : (2 : Nat) ^ bits = 2 ^ (bits - shift) * 2 ^ shift := by
              rw [← pow_add]
              congr 1
              omega
            have h1 : b % 0x80 * 2 ^ shift ≤ (2 ^ (bits - shift) - 1) * 2 ^ shift :=
              Nat.mul_le_mul_right _ hpart
            rw [Nat.sub_mul, one_mul] at h1
            have hk : 1 * 2 ^ shift ≤ 2 ^ (bits - shift) * 2 ^ shift :=
              Nat.mul_le_mul_right _ Nat.one_le_two_pow
            rw [one_mul] at hk
            rw [hsplit]
            omega
          · have hz : bits - shift = 0 := by omega
            rw [hz] at hpart
            norm_num at hpart
            rw [hpart]
            simpa using haccM
        by_cases hterm : b &&& 0x80 = 0
        · rw [if_pos hterm] at h
          simp only [Except.ok.injEq, Prod.mk.injEq, Option.some.injEq] at h
          obtain ⟨hu, hv⟩ := h
          refine ⟨0, by simp, by omega, by omega, ?_, ?_, ?_, ?_⟩
          · intro j hj
            exact absurd hj (by omega)
          · simpa using hterm
          · rw [← hv]
            simp [varVal]
          · rw [← hv]
            exact hself
        · rw [if_neg hterm] at h
          have hacc2 : acc + b % 0x80 * 2 ^ shift < 2 ^ (shift + 7) := by
            have h1 : b % 0x80 * 2 ^ shift ≤ 127 * 2 ^ shift :=
              Nat.mul_le_mul_right _ (by omega)
            rw [pow_add, show (2 : Nat) ^ 7 = 128 by norm_num]
            omega
          obtain ⟨t, htl, hu, htb, hprev, htermr, hval, hvb⟩ :=
            ih (i + 1) (shift + 7) _ u v h hacc2 hself
          refine ⟨t + 1, by simpa using htl, by omega, by omega, ?_, ?_, ?_, hvb⟩
          · intro j hj
            match j with
            | 0 => simpa using hterm
            | j + 1 =>
              simp only [List.getD_cons_succ]
              exact hprev j (by omega)
          · simpa using htermr
          · rw [hval]
            have htake : (b :: rest).take (t + 1 + 1) = b :: rest.take (t + 1) := rfl
            rw [htake]
            simp only [varVal]
            rw [pow_add]
            ring

/-- The VarUint read loop reports "need more bytes" only when the available
bytes contain no terminator (every byte has the continuation bit set). -/
theorem varReadAux_none (bits : Nat) : ∀ (src : List Nat) (i shift acc u : Nat),
    varReadAux bits src i shift acc = .ok (u, none) →
    ∀ j, j < src.length → src.getD j 0 &&& 0x80 ≠ 0 := by
  intro src
  induction src with
  | nil =>
    intro i shift acc u _ j hj
    simp at hj
  | cons b rest ih =>
    intro i shift acc u h j hj
    rw [varReadAux] at h
    by_cases hchk : (bits + 6) / 7 ≤ i
    · rw [if_pos hchk] at h
      exact absurd h (by simp)
    · rw [if_neg hchk] at h
      dsimp only at h
      by_cases hpart : (2 ^ bits - 1) >>> shift < b &&& 0x7F
      · rw [if_pos hpart] at h
        exact absurd h (by simp)
      · rw [if_neg hpart] at h
        by_cases hterm : b &&& 0x80 = 0
        · rw [if_pos hterm] at h
          exact absurd h (by simp)
        · rw [if_neg hterm] at h
          match j with
          | 0 => simpa using hterm
          | j + 1 =>
            simp only [List.getD_cons_succ]
            exact ih _ _ _ _ h j (by simpa using hj)

/-- C6: For every unsigned base type `U` (modelled by its bit count `bits`),
`serializer<VarUint<U>>::read` raises a decode error on any input stream
containing a terminated base-128 encoding that uses more than
`(bits + 6) / 7` bytes (the integer-division form of the spec's byte limit)
or whose decoded magnitude exceeds `U`'s maximum value `2 ^ bits - 1`; and
the value zero encodes as the single byte `0x00`. -/
theorem varUintRead_rejects_overflow (bits t : Nat) (src : List Nat)
    (hterm : src.getD t 0 &&& 0x80 = 0)
    (hpre : ∀ j, j < t → src.getD j 0 &&& 0x80 ≠ 0)
    (htlen : t < src.length)
    (hbad : (bits + 6) / 7 < t + 1 ∨ 2 ^ bits - 1 < varVal (src.take (t + 1))) :
    varRead bits src = .error () ∧ varEnc 0 = [0x00] := by
  refine ⟨?_, by rw [varEnc, dif_pos (by norm_num)]⟩
  rcases hres : varRead bits src with e | r
  · cases e
    rfl
  · exfalso
    rw [varRead] at hres
    obtain ⟨u, v?⟩ := r
    rcases v? with _ | v
    · exact varReadAux_none bits src 0 0 0 u hres t htlen hterm
    · obtain ⟨t', ht'l, hu, htb, hpre', hterm', hval, hvb⟩ :=
        varReadAux_sound bits src 0 0 0 u v hres (by norm_num) (Nat.zero_le _)
      have htt : t = t' := by
        rcases lt_trichotomy t t' with hlt | heq | hgt
        · exact absurd hterm (hpre' t hlt)
        · exact heq
        · exact absurd hterm' (hpre t' hgt)
      subst htt
      rcases hbad with hb1 | hb2
      · omega
      · simp only [pow_zero, mul_one, Nat.zero_add] at hval
        omega

theorem varUintRead_rejects_overflow_witness :
    varRead 8 [0x80, 0x80, 0x01] = .error () ∧ varEnc 0 = [0x00] :=
  varUintRead_rejects_overflow 8 2 [0x80, 0x80, 0x01] (by decide) (by decide)
    (by decide) (.inl (by decide))

theorem take_append_len (pre mid D : List Nat) (n : Nat)
    (h : pre.length + mid.length = n) : (pre ++ (mid ++ D)).take n = pre ++ mid := by
  rw [← List.append_assoc]
  exact List.take_left' (by simp [h])

theorem drop_append_len (pre mid D : List Nat) (n k : Nat)
    (h : pre.length + mid.length = n) : (pre ++ (mid ++ D)).drop (n + k) = D.drop k := by
  rw [← List.append_assoc,
    show n + k = (pre ++ mid).length + k by simp [← h], List.drop_append]

theorem tyOkList_mem : ∀ (ts : List Ty) (vs : List Val), tyOkList ts vs = true →
    ∀ v ∈ vs, ∃ t, tyOk t v = true := by
  intro ts vs
  induction vs generalizing ts with
  | nil => intro _ v hv; simp at hv
  | cons v vs ih =>
    intro h w hw
    cases ts with
    | nil => simp [tyOkList] at h
    | cons t ts =>
      rw [tyOkList, Bool.and_eq_true] at h
      rcases List.mem_cons.mp hw with rfl | hw
      · exact ⟨t, h.1⟩
      · exact ih ts h.2 w hw

theorem tyOkSeq_mem : ∀ (t : Ty) (vs : List Val), tyOkSeq t vs = true →
    ∀ v ∈ vs, ∃ u, tyOk u v = true := by
  intro t vs
  induction vs with
  | nil => intro _ v hv; simp at hv
  | cons v vs ih =>
    intro h w hw
    rw [tyOkSeq, Bool.and_eq_true] at h
    rcases List.mem_cons.mp hw with rfl | hw
    · exact ⟨t, h.1⟩
    · exact ih h.2 w hw

theorem tyOkAt_mem : ∀ (ts : List Ty) (k : Nat) (p : Val), tyOkAt ts k p = true →
    ∃ t, tyOk t p = true := by
  intro ts
  induction ts with
  | nil => intro k p h; simp [tyOkAt] at h
  | cons t ts ih =>
    intro k p h
    match k with
    | 0 =>
      simp only [tyOkAt] at h
      exact ⟨t, h⟩
    | k + 1 =>
      simp only [tyOkAt] at h
      exact ih k p h

theorem tyOkAt_lt : ∀ (ts : List Ty) (k : Nat) (p : Val), tyOkAt ts k p = true →
    k < ts.length := by
  intro ts
  induction ts with
  | nil => intro k p h; simp [tyOkAt] at h
  | cons t ts ih =>
    intro k p h
    match k with
    | 0 => simp
    | k + 1 =>
      simp only [tyOkAt] at h
      have := ih k p h
      simpa using Nat.succ_lt_succ this

/-- Evaluates `Nat.size` on concrete values from two power bounds. -/
theorem nat_size_eq {n k : Nat} (h1 : 2 ^ k ≤ n) (h2 : n < 2 ^ (k + 1)) :
    Nat.size n = k + 1 :=
  le_antisymm (Nat.size_le.mpr h2) (Nat.lt_size.mpr h1)

mutual
/-- A successful write occupies exactly `get_size` bytes. -/
theorem enc_length : ∀ v : Val, (enc v).length = get_size v
  | .uint w v => by simp [enc, get_size, beBytes_length]
  | .varUint bits v => by simp [enc, get_size, varEnc_length]
  | .bytes bs => by simp [enc, get_size, varEnc_length]
  | .fixedBytes bs => by simp [enc, get_size]
  | .tup vs => by simp [enc, get_size, encList_length vs]
  | .seq vs => by simp [enc, get_size, varEnc_length, encList_length vs]
  | .variant idx p => by
    simp [enc, get_size, enc_length p]
    omega

theorem encList_length : ∀ vs : List Val, (enc_list vs).length = get_size_list vs
  | [] => rfl
  | v :: vs => by simp [enc_list, get_size_list, enc_length v, encList_length vs]
end

mutual
/-- A write into a destination with room for the whole value succeeds,
returns `get_size`, and places the encoding at the start of the region,
leaving the remainder untouched. -/
theorem wr_fits : ∀ (v : Val) (t : Ty), tyOk t v = true →
    ∀ (dest : List Nat), get_size v ≤ dest.length →
    wr v dest = .ok (get_size v, enc v ++ dest.drop (get_size v))
  | .uint w v2, t, h, dest, hlen => by
    simp only [get_size] at hlen ⊢
    simp only [wr, enc]
    rw [if_neg (by omega)]
  | .varUint bits v2, t, h, dest, hlen => by
    simp only [get_size] at hlen ⊢
    simp only [wr, enc]
    rw [if_neg (by omega)]
  | .bytes bs, t, h, dest, hlen => by
    cases t <;> simp [tyOk] at h
    obtain ⟨hmax, hbts⟩ := h
    simp only [get_size] at hlen ⊢
    simp only [wr, enc]
    rw [if_neg (by omega), if_neg (by omega)]
  | .fixedBytes bs, t, h, dest, hlen => by
    simp only [get_size] at hlen ⊢
    simp only [wr, enc]
    rw [if_neg (by omega)]
  | .tup vs, t, h, dest, hlen => by
    cases t <;> simp [tyOk] at h
    next ts =>
      simp only [get_size] at hlen ⊢
      simp only [wr, enc]
      have := wrList_fits vs (tyOkList_mem ts vs h) dest 0 (by omega)
      rw [this]
      simp
  | .seq vs, t, h, dest, hlen => by
    cases t <;> simp [tyOk] at h
    next t =>
      obtain ⟨hmax, hseq⟩ := h
      simp only [get_size] at hlen ⊢
      simp only [wr, enc]
      rw [if_neg (by omega), if_neg (by omega)]
      have hbuflen : (varEnc vs.length ++ dest.drop (varSize vs.length)).length =
          dest.length := by
        simp [varEnc_length]
        omega
      have hrec := wrList_fits vs (tyOkSeq_mem t vs hseq)
        (varEnc vs.length ++ dest.drop (varSize vs.length)) (varSize vs.length)
        (by rw [hbuflen]; omega)
      rw [hrec]
      have htake : (varEnc vs.length ++ dest.drop (varSize vs.length)).take
          (varSize vs.length) = varEnc vs.length :=
        List.take_left' (varEnc_length vs.length)
      have hdrop : (varEnc vs.length ++ dest.drop (varSize vs.length)).drop
          (varSize vs.length + get_size_list vs) =
          dest.drop (varSize vs.length + get_size_list vs) := by
        rw [show varSize vs.length + get_size_list vs =
            (varEnc vs.length).length + get_size_list vs by rw [varEnc_length],
          List.drop_append, List.drop_drop]
        rw [varEnc_length]
      rw [htake, hdrop, ← List.append_assoc]
  | .variant idx p, t, h, dest, hlen => by
    cases t <;> simp [tyOk] at h
    next ts =>
      obtain ⟨h256, hat⟩ := h
      obtain ⟨t2, ht2⟩ := tyOkAt_mem ts idx p hat
      simp only [get_size] at hlen ⊢
      simp only [wr, enc]
      rw [if_neg (by omega)]
      rw [wr_fits p t2 ht2 (dest.drop 1) (by simp; omega)]
      rw [List.drop_drop]
      rfl

theorem wrList_fits : ∀ (vs : List Val), (∀ v ∈ vs, ∃ t, tyOk t v = true) →
    ∀ (buf : List Nat) (pos : Nat), pos + get_size_list vs ≤ buf.length →
    wrList vs buf pos = .ok (pos + get_size_list vs,
      buf.take pos ++ (enc_list vs ++ buf.drop (pos + get_size_list vs)))
  | [], _, buf, pos, hlen => by
    simp only [wrList, enc_list, get_size_list, Nat.add_zero, List.nil_append]
    rw [List.take_append_drop]
  | v :: vs, hmem, buf, pos, hlen => by
    obtain ⟨t, ht⟩ := hmem v (List.mem_cons_self _ _)
    simp only [get_size_list] at hlen ⊢
    simp only [wrList]
    have hrlen : (buf.drop pos).length = buf.length - pos := by simp
    rw [wr_fits v t ht (buf.drop pos) (by omega)]
    dsimp only
    rw [if_neg (by omega)]
    have hpos : pos ≤ buf.length := by omega
    have htklen : (buf.take pos).length = pos := by simp; omega
    have hbuf2 : (buf.take pos ++ (enc v ++ (buf.drop pos).drop (get_size v))) =
        buf.take pos ++ (enc v ++ buf.drop (pos + get_size v)) := by
      rw [List.drop_drop]
    rw [hbuf2]
    have hbuf2len : (buf.take pos ++ (enc v ++ buf.drop (pos + get_size v))).length =
        buf.length := by
      simp [enc_length v]
      omega
    have hrec := wrList_fits vs (fun w hw => hmem w (List.mem_cons_of_mem v hw))
      (buf.take pos ++ (enc v ++ buf.drop (pos + get_size v))) (pos + get_size v)
      (by rw [hbuf2len]; omega)
    rw [hrec]
    have hpre : (buf.take pos).length + (enc v).length = pos + get_size v := by
      rw [htklen, enc_length v]
    rw [take_append_len _ _ _ _ hpre]
    rw [show pos + get_size v + get_size_list vs =
      (pos + get_size v) + get_size_list vs by ring]
    rw [drop_append_len _ _ _ _ _ hpre, List.drop_drop]
    rw [List.append_assoc]
    rw [show pos + get_size v + get_size_list vs = pos + (get_size v + get_size_list vs)
      by ring]
    simp only [enc_list]
    rw [List.append_assoc]
end

mutual
/-- Round-trip: reading the encoding of a well-formed value back at its type
succeeds, consumes exactly `get_size` bytes and recovers the value;
trailing bytes are not consumed. -/
theorem rd_enc : ∀ (v : Val) (t : Ty), tyOk t v = true → ∀ (rest : List Nat),
    rd t (enc v ++ rest) = .ok (get_size v, some v)
  | .uint w2 v2, t, h, rest => by
    cases t <;> simp [tyOk] at h
    next w =>
    obtain ⟨heq, hv⟩ := h
    rw [heq] at hv ⊢
    simp only [enc, get_size, rd]
    have hlen : (beBytes w2 v2 ++ rest).length = w2 + rest.length := by
      simp [beBytes_length]
    rw [if_neg (by omega)]
    have htk : (beBytes w2 v2 ++ rest).take w2 = beBytes w2 v2 :=
      List.take_left' (beBytes_length _ _)
    rw [htk]
    have h256 : v2 < 256 ^ w2 := by
      have h28 : (256 : Nat) ^ w2 = 2 ^ (8 * w2) := by
        rw [pow_mul]
        norm_num
      omega
    rw [show beVal (beBytes w2 v2) = v2 by
      rw [beVal, beBytes, List.reverse_reverse, leVal_leBytes _ _ h256]]
  | .varUint bits2 v2, t, h, rest => by
    cases t <;> simp [tyOk] at h
    next bits =>
    obtain ⟨⟨heq, hb⟩, hv⟩ := h
    rw [heq] at hb hv ⊢
    simp only [enc, get_size, rd]
    rw [varRead_enc hb hv rest]
    rfl
  | .bytes bs, t, h, rest => by
    cases t <;> simp [tyOk] at h
    obtain ⟨hmax, hbts⟩ := h
    simp only [enc, get_size, rd]
    rw [List.append_assoc]
    have hv : bs.length < 2 ^ 64 := by
      have : MAX_AUTOSER_BYTES < 2 ^ 64 := by rw [MAX_AUTOSER_BYTES]; norm_num
      omega
    rw [varRead_enc (by norm_num) hv (bs ++ rest)]
    dsimp only
    rw [if_neg (by omega)]
    have hlen : (varEnc bs.length ++ (bs ++ rest)).length =
        varSize bs.length + (bs.length + rest.length) := by
      simp [varEnc_length]
    rw [if_neg (by omega)]
    have hdrop : (varEnc bs.length ++ (bs ++ rest)).drop (varSize bs.length) =
        bs ++ rest := List.drop_left' (varEnc_length _)
    rw [hdrop, List.take_left]
  | .fixedBytes bs, t, h, rest => by
    cases t <;> simp [tyOk] at h
    next n =>
    obtain ⟨heq, hbts⟩ := h
    rw [← heq] at *
    simp only [enc, get_size, rd]
    have hlen : (bs ++ rest).length = bs.length + rest.length := by simp
    rw [if_neg (by omega), List.take_left]
  | .tup vs, t, h, rest => by
    cases t <;> simp [tyOk] at h
    next ts =>
      simp only [enc, get_size, rd]
      rw [rdList_enc vs ts h (enc_list vs ++ rest) 0 rest (by simp)]
      simp
  | .seq vs, t, h, rest => by
    cases t <;> simp [tyOk] at h
    next t =>
      obtain ⟨hmax, hseq⟩ := h
      simp only [enc, get_size, rd]
      rw [List.append_assoc]
      have hv : vs.length < 2 ^ 64 := by
        have : MAX_AUTOSER_ITEMS < 2 ^ 64 := by rw [MAX_AUTOSER_ITEMS]; norm_num
        omega
      rw [varRead_enc (by norm_num) hv (enc_list vs ++ rest)]
      dsimp only
      rw [if_neg (by omega)]
      have hdrop : (varEnc vs.length ++ (enc_list vs ++ rest)).drop
          (varSize vs.length) = enc_list vs ++ rest := List.drop_left' (varEnc_length _)
      rw [rdCount_enc vs t hseq (varEnc vs.length ++ (enc_list vs ++ rest))
        (varSize vs.length) rest hdrop]
      rfl
  | .variant idx p, t, h, rest => by
    cases t <;> simp [tyOk] at h
    next ts =>
      obtain ⟨h256, hat⟩ := h
      have hidxlt : idx < ts.length := tyOkAt_lt ts idx p hat
      have hidx : idx % 256 = idx := Nat.mod_eq_of_lt (by omega)
      simp only [enc, get_size, rd, List.cons_append]
      rw [if_neg (by simp)]
      simp only [List.getD_cons_zero, List.drop_succ_cons, List.drop_zero]
      rw [Nat.mod_mod_of_dvd idx dvd_rfl, hidx]
      rw [if_neg (by omega)]
      rw [rdVariant_enc p ts idx hat rest]
      rfl

theorem rdList_enc : ∀ (vs : List Val) (ts : List Ty), tyOkList ts vs = true →
    ∀ (src : List Nat) (pos : Nat) (rest : List Nat),
    src.drop pos = enc_list vs ++ rest →
    rdList ts src pos = .ok (pos + get_size_list vs, some vs)
  | [], ts, h, src, pos, rest, hdrop => by
    cases ts with
    | nil => simp [rdList, get_size_list]
    | cons t ts => simp [tyOkList] at h
  | v :: vs, ts, h, src, pos, rest, hdrop => by
    cases ts with
    | nil => simp [tyOkList] at h
    | cons t ts =>
      rw [tyOkList, Bool.and_eq_true] at h
      obtain ⟨ht, hts⟩ := h
      have hregion : src.drop pos = enc v ++ (enc_list vs ++ rest) := by
        rw [hdrop]
        simp only [enc_list]
        rw [List.append_assoc]
      rw [rdList]
      rw [hregion, rd_enc v t ht (enc_list vs ++ rest)]
      dsimp only
      have hrl : (enc v ++ (enc_list vs ++ rest)).length =
          get_size v + ((enc_list vs).length + rest.length) := by
        simp [enc_length v]
      rw [if_neg (by omega)]
      have hdrop2 : src.drop (pos + get_size v) = enc_list vs ++ rest := by
        rw [← List.drop_drop, hregion, ← enc_length v, List.drop_left]
      rw [rdList_enc vs ts hts src (pos + get_size v) rest hdrop2]
      rw [show pos + get_size v + get_size_list vs =
        pos + get_size_list (v :: vs) by rw [get_size_list]; ring]
      rfl

theorem rdCount_enc : ∀ (vs : List Val) (t : Ty), tyOkSeq t vs = true →
    ∀ (src : List Nat) (pos : Nat) (rest : List Nat),
    src.drop pos = enc_list vs ++ rest →
    rdCount vs.length t src pos = .ok (pos + get_size_list vs, some vs)
  | [], t, h, src, pos, rest, hdrop => by
    simp [rdCount, get_size_list]
  | v :: vs, t, h, src, pos, rest, hdrop => by
    rw [tyOkSeq, Bool.and_eq_true] at h
    obtain ⟨ht, hts⟩ := h
    have hregion : src.drop pos = enc v ++ (enc_list vs ++ rest) := by
      rw [hdrop]
      simp only [enc_list]
      rw [List.append_assoc]
    rw [show (v :: vs).length = vs.length + 1 by simp, rdCount]
    rw [hregion, rd_enc v t ht (enc_list vs ++ rest)]
    dsimp only
    have hrl : (enc v ++ (enc_list vs ++ rest)).length =
        get_size v + ((enc_list vs).length + rest.length) := by
      simp [enc_length v]
    rw [if_neg (by omega)]
    have hdrop2 : src.drop (pos + get_size v) = enc_list vs ++ rest := by
      rw [← List.drop_drop, hregion, ← enc_length v, List.drop_left]
    rw [rdCount_enc vs t hts src (pos + get_size v) rest hdrop2]
    rw [show pos + get_size v + get_size_list vs =
      pos + get_size_list (v :: vs) by rw [get_size_list]; ring]
    rfl

theorem rdVariant_enc : ∀ (p : Val) (ts : List Ty) (k : Nat), tyOkAt ts k p = true →
    ∀ (rest : List Nat), rdVariant k ts (enc p ++ rest) = .ok (get_size p, some p)
  | p, [], k, hat, rest => by simp [tyOkAt] at hat
  | p, t :: ts, 0, hat, rest => by
    simp only [tyOkAt] at hat
    rw [rdVariant]
    exact rd_enc p t hat rest
  | p, t :: ts, k + 1, hat, rest => by
    simp only [tyOkAt] at hat
    rw [rdVariant]
    exact rdVariant_enc p ts k hat rest
end

/-- C4: For every value of every built-in serializable type (within the
serializers' static limits, `tyOk`), encoding into a buffer of at least
`get_size v` bytes succeeds and writes the encoding, decoding it back
yields the same value, and the byte count returned by `write` equals
`get_size v`, equals the encoding's length, and equals the byte count
returned by `read`. -/
theorem serializer_roundtrip (v : Val) (t : Ty) (h : tyOk t v = true)
    (dest : List Nat) (hlen : get_size v ≤ dest.length) (rest : List Nat) :
    wr v dest = .ok (get_size v, enc v ++ dest.drop (get_size v)) ∧
    rd t (enc v ++ rest) = .ok (get_size v, some v) ∧
    (enc v).length = get_size v :=
  ⟨wr_fits v t h dest hlen, rd_enc v t h rest, enc_length v⟩

theorem serializer_roundtrip_witness :
    wr (.seq [.tup [.bytes [0x61], .uint 2 5], .tup [.bytes [], .uint 2 0]])
        [7, 7, 7, 7, 7, 7, 7, 7, 7, 7] =
      .ok (8, enc (.seq [.tup [.bytes [0x61], .uint 2 5], .tup [.bytes [], .uint 2 0]]) ++
        [7, 7]) ∧
    rd (.seq (.tup [.bytes, .uint 2]))
        (enc (.seq [.tup [.bytes [0x61], .uint 2 5], .tup [.bytes [], .uint 2 0]]) ++ [9]) =
      .ok (8, some (.seq [.tup [.bytes [0x61], .uint 2 5], .tup [.bytes [], .uint 2 0]])) ∧
    (enc (.seq [.tup [.bytes [0x61], .uint 2 5], .tup [.bytes [], .uint 2 0]])).length = 8 := by
  have h := serializer_roundtrip
    (.seq [.tup [.bytes [0x61], .uint 2 5], .tup [.bytes [], .uint 2 0]])
    (.seq (.tup [.bytes, .uint 2]))
    (by simp [tyOk, tyOkList, tyOkSeq, MAX_AUTOSER_BYTES, MAX_AUTOSER_ITEMS])
    [7, 7, 7, 7, 7, 7, 7, 7, 7, 7]
    (by simp [get_size, get_size_list, varSize, bit_width,
          nat_size_eq (show 2 ^ 1 ≤ 2 by norm_num) (by norm_num)])
    [9]
  have hsz : get_size (.seq [.tup [.bytes [0x61], .uint 2 5], .tup [.bytes [], .uint 2 0]]) = 8 := by
    simp [get_size, get_size_list, varSize, bit_width,
      nat_size_eq (show 2 ^ 1 ≤ 2 by norm_num) (by norm_num)]
  rw [hsz] at h
  exact h

/-- The scalar serializers (fixed-width integers, VarUint, dynamic and
fixed byte containers, variants) return exactly the needed count and leave
the destination untouched when the capacity is insufficient. -/
theorem wr_scalar_over : ∀ (v : Val) (t : Ty), tyOk t v = true →
    isScalar v = true → ∀ (dest : List Nat), dest.length < get_size v →
    wr v dest = .ok (get_size v, dest)
  | .uint w v2, t, h, hs, dest, hlen => by
    simp only [get_size] at hlen ⊢
    rw [wr, if_pos hlen]
  | .varUint bits v2, t, h, hs, dest, hlen => by
    simp only [get_size] at hlen ⊢
    rw [wr, if_pos hlen]
  | .bytes bs, t, h, hs, dest, hlen => by
    cases t <;> simp [tyOk] at h
    obtain ⟨hmax, hbts⟩ := h
    simp only [get_size] at hlen ⊢
    rw [wr, if_neg (by omega)]
    dsimp only
    rw [if_pos hlen]
  | .fixedBytes bs, t, h, hs, dest, hlen => by
    simp only [get_size] at hlen ⊢
    rw [wr, if_pos hlen]
  | .tup vs, t, h, hs, dest, hlen => by simp [isScalar] at hs
  | .seq vs, t, h, hs, dest, hlen => by simp [isScalar] at hs
  | .variant idx p, t, h, hs, dest, hlen => by
    simp only [get_size] at hlen ⊢
    rw [wr, if_pos hlen]

mutual
/-- A write result always has the same region length as the destination. -/
theorem wr_len : ∀ (v : Val) (dest : List Nat) (r : Nat) (d2 : List Nat),
    wr v dest = .ok (r, d2) → d2.length = dest.length
  | .uint w v2, dest, r, d2, h => by
    rw [wr] at h
    split at h
    · simp only [Except.ok.injEq, Prod.mk.injEq] at h
      rw [← h.2]
    · next hlen =>
      simp only [Except.ok.injEq, Prod.mk.injEq] at h
      rw [← h.2]
      simp [beBytes_length]
      omega
  | .varUint bits v2, dest, r, d2, h => by
    rw [wr] at h
    split at h
    · simp only [Except.ok.injEq, Prod.mk.injEq] at h
      rw [← h.2]
    · next hlen =>
      simp only [Except.ok.injEq, Prod.mk.injEq] at h
      rw [← h.2]
      simp [varEnc_length]
      omega
  | .bytes bs, dest, r, d2, h => by
    rw [wr] at h
    split at h
    · simp at h
    · dsimp only at h
      split at h
      · simp only [Except.ok.injEq, Prod.mk.injEq] at h
        rw [← h.2]
      · next hlen =>
        simp only [Except.ok.injEq, Prod.mk.injEq] at h
        rw [← h.2]
        simp [varEnc_length]
        omega
  | .fixedBytes bs, dest, r, d2, h => by
    rw [wr] at h
    split at h
    · simp only [Except.ok.injEq, Prod.mk.injEq] at h
      rw [← h.2]
    · next hlen =>
      simp only [Except.ok.injEq, Prod.mk.injEq] at h
      rw [← h.2]
      simp
      omega
  | .tup vs, dest, r, d2, h => by
    rw [wr] at h
    exact wrList_len vs dest 0 r d2 (by simp) h
  | .seq vs, dest, r, d2, h => by
    rw [wr] at h
    split at h
    · simp at h
    · dsimp only at h
      split at h
      · simp only [Except.ok.injEq, Prod.mk.injEq] at h
        rw [← h.2]
      · next hlen =>
        have := wrList_len vs (varEnc vs.length ++ dest.drop (varSize vs.length))
          (varSize vs.length) r d2 (by simp [varEnc_length]) h
        rw [this]
        simp [varEnc_length]
        omega
  | .variant idx p, dest, r, d2, h => by
    rw [wr] at h
    split at h
    · simp only [Except.ok.injEq, Prod.mk.injEq] at h
      rw [← h.2]
    · next hlen =>
      rcases hw : wr p (dest.drop 1) with e | pr
      · rw [hw] at h
        simp at h
      · obtain ⟨r1, reg2⟩ := pr
        rw [hw] at h
        simp only [Except.ok.injEq, Prod.mk.injEq] at h
        obtain ⟨rfl, rfl⟩ := h
        have hl := wr_len p (dest.drop 1) r1 reg2 hw
        simp only [List.length_cons, hl, List.length_drop]
        omega

theorem wrList_len : ∀ (vs : List Val) (buf : List Nat) (pos : Nat) (r : Nat)
    (d2 : List Nat), pos ≤ buf.length → wrList vs buf pos = .ok (r, d2) →
    d2.length = buf.length
  | [], buf, pos, r, d2, hpos, h => by
    rw [wrList] at h
    simp only [Except.ok.injEq, Prod.mk.injEq] at h
    rw [← h.2]
  | v :: vs, buf, pos, r, d2, hpos, h => by
    rw [wrList] at h
    rcases hw : wr v (buf.drop pos) with e | pr
    · rw [hw] at h
      simp at h
    · obtain ⟨used, reg2⟩ := pr
      rw [hw] at h
      dsimp only at h
      have hlen2 : reg2.length = (buf.drop pos).length := wr_len v _ _ _ hw
      have hbuflen : (buf.take pos ++ reg2).length = buf.length := by
        simp [hlen2]
        omega
      split at h
      · simp only [Except.ok.injEq, Prod.mk.injEq] at h
        rw [← h.2, hbuflen]
      · next hcond =>
        have := wrList_len vs (buf.take pos ++ reg2) (pos + used) r d2
          (by rw [hbuflen]; simp only [List.length_drop] at hcond; omega) h
        rw [this, hbuflen]
end

mutual
/-- On insufficient capacity, every write returns a count strictly larger
than the capacity (the caller's grow signal), bounded by the full size. -/
theorem wr_over : ∀ (v : Val) (t : Ty), tyOk t v = true →
    ∀ (dest : List Nat), dest.length < get_size v →
    ∃ r d2, wr v dest = .ok (r, d2) ∧ dest.length < r ∧ r ≤ get_size v
  | .uint w v2, t, h, dest, hlen => by
    simp only [get_size] at hlen ⊢
    exact ⟨w, dest, by rw [wr, if_pos hlen], hlen, le_refl w⟩
  | .varUint bits v2, t, h, dest, hlen => by
    simp only [get_size] at hlen ⊢
    exact ⟨varSize v2, dest, by rw [wr, if_pos hlen], hlen, le_refl _⟩
  | .bytes bs, t, h, dest, hlen => by
    cases t <;> simp [tyOk] at h
    obtain ⟨hmax, hbts⟩ := h
    simp only [get_size] at hlen ⊢
    refine ⟨varSize bs.length + bs.length, dest, ?_, hlen, le_refl _⟩
    rw [wr, if_neg (by omega)]
    dsimp only
    rw [if_pos hlen]
  | .fixedBytes bs, t, h, dest, hlen => by
    simp only [get_size] at hlen ⊢
    exact ⟨bs.length, dest, by rw [wr, if_pos hlen], hlen, le_refl _⟩
  | .tup vs, t, h, dest, hlen => by
    cases t <;> simp [tyOk] at h
    next ts =>
      simp only [get_size] at hlen ⊢
      obtain ⟨r, d2, hw, hgt, hle⟩ :=
        wrList_over vs (tyOkList_mem ts vs h) dest 0 (by omega) (by omega)
      exact ⟨r, d2, by rw [wr]; exact hw, hgt, by omega⟩
  | .seq vs, t, h, dest, hlen => by
    cases t <;> simp [tyOk] at h
    next t =>
      obtain ⟨hmax, hseq⟩ := h
      simp only [get_size] at hlen ⊢
      by_cases hsz : dest.length < varSize vs.length
      · refine ⟨varSize vs.length, dest, ?_, hsz, by omega⟩
        rw [wr, if_neg (by omega)]
        dsimp only
        rw [if_pos hsz]
      · push_neg at hsz
        have hbl : (varEnc vs.length ++ dest.drop (varSize vs.length)).length =
            dest.length := by
          simp [varEnc_length]
          omega
        obtain ⟨r, d2, hw, hgt, hle⟩ := wrList_over vs (tyOkSeq_mem t vs hseq)
          (varEnc vs.length ++ dest.drop (varSize vs.length)) (varSize vs.length)
          (by omega) (by omega)
        refine ⟨r, d2, ?_, by omega, by omega⟩
        rw [wr, if_neg (by omega)]
        dsimp only
        rw [if_neg (by omega)]
        exact hw
  | .variant idx p, t, h, dest, hlen => by
    simp only [get_size] at hlen ⊢
    exact ⟨1 + get_size p, dest, by rw [wr, if_pos hlen], hlen, le_refl _⟩

theorem wrList_over : ∀ (vs : List Val), (∀ v ∈ vs, ∃ t, tyOk t v = true) →
    ∀ (buf : List Nat) (pos : Nat), pos ≤ buf.length →
    buf.length < pos + get_size_list vs →
    ∃ r d2, wrList vs buf pos = .ok (r, d2) ∧ buf.length < r ∧
      r ≤ pos + get_size_list vs
  | [], _, buf, pos, hpos, hlen => by
    exfalso
    simp [get_size_list] at hlen
    omega
  | v :: vs, hmem, buf, pos, hpos, hlen => by
    obtain ⟨t, ht⟩ := hmem v (List.mem_cons_self _ _)
    simp only [get_size_list] at hlen ⊢
    have hrlen : (buf.drop pos).length = buf.length - pos := by simp
    by_cases hfit : (buf.drop pos).length < get_size v
    · obtain ⟨r1, reg2, hw, hgt, hle⟩ := wr_over v t ht (buf.drop pos) hfit
      refine ⟨pos + r1, buf.take pos ++ reg2, ?_, by omega, by omega⟩
      rw [wrList, hw]
      dsimp only
      rw [if_pos hgt]
    · push_neg at hfit
      rw [wrList, wr_fits v t ht (buf.drop pos) hfit]
      dsimp only
      rw [if_neg (by omega)]
      have hb2 : (buf.take pos ++ (enc v ++ (buf.drop pos).drop (get_size v))).length =
          buf.length := by
        simp [enc_length v]
        omega
      obtain ⟨r, d2, hw2, hgt2, hle2⟩ := wrList_over vs
        (fun w hw => hmem w (List.mem_cons_of_mem v hw))
        (buf.take pos ++ (enc v ++ (buf.drop pos).drop (get_size v)))
        (pos + get_size v) (by omega) (by omega)
      exact ⟨r, d2, hw2, by omega, by omega⟩
end

/-- C3 (amended): When `serializer<T>::write` is called with a destination
capacity strictly smaller than the needed byte count, it returns a count
strictly greater than the capacity and at most the total needed count, and
never writes past the capacity (the region keeps its length).  Scalar
serializers return exactly the needed count and leave every byte of the
destination unchanged; the `Writer`-loop aggregate serializers (tuples,
arrays of serializables, composites, containers) may write complete
member encodings into the destination and may return an intermediate
count (prefix written so far plus the failing member's requirement)
that is smaller than the total needed count. -/
theorem write_insufficient_sentinel (v : Val) (t : Ty) (h : tyOk t v = true)
    (dest : List Nat) (hlen : dest.length < get_size v) :
    ∃ r d2, wr v dest = .ok (r, d2) ∧ dest.length < r ∧ r ≤ get_size v ∧
      d2.length = dest.length ∧
      (isScalar v = true → r = get_size v ∧ d2 = dest) := by
  obtain ⟨r, d2, hw, hgt, hle⟩ := wr_over v t h dest hlen
  refine ⟨r, d2, hw, hgt, hle, wr_len v dest r d2 hw, ?_⟩
  intro hs
  have hsc := wr_scalar_over v t h hs dest hlen
  rw [hw] at hsc
  simp only [Except.ok.injEq, Prod.mk.injEq] at hsc
  exact ⟨hsc.1, hsc.2⟩

theorem write_insufficient_sentinel_witness :
    ∃ r d2, wr (.varUint 16 300) [7] = .ok (r, d2) ∧ 1 < r ∧
      r ≤ get_size (.varUint 16 300) ∧ d2.length = 1 ∧
      (isScalar (.varUint 16 300) = true → r = get_size (.varUint 16 300) ∧ d2 = [7]) := by
  have h := write_insufficient_sentinel (.varUint 16 300) (.varUint 16)
    (by simp [tyOk]) [7]
    (by simp [get_size, varSize, bit_width,
      nat_size_eq (show 2 ^ 8 ≤ 300 by norm_num) (by norm_num)])
  simpa using h

/-- C3 as stated fails on aggregate serializers: writing a three-field
tuple needing 17 bytes into a 4-byte region writes the first member into
the region and returns 9 (prefix + failing member), not the needed 17
with the region unchanged. -/
theorem write_insufficient_counterexample :
    wr (.tup [.uint 1 1, .uint 8 1, .uint 8 1]) [7, 7, 7, 7] = .ok (9, [1, 7, 7, 7]) ∧
    get_size (.tup [.uint 1 1, .uint 8 1, .uint 8 1]) = 17 ∧
    wr (.tup [.uint 1 1, .uint 8 1, .uint 8 1]) [7, 7, 7, 7] ≠
      .ok (get_size (.tup [.uint 1 1, .uint 8 1, .uint 8 1]), [7, 7, 7, 7]) := by
  have h1 : wr (.tup [.uint 1 1, .uint 8 1, .uint 8 1]) [7, 7, 7, 7] =
      .ok (9, [1, 7, 7, 7]) := by
    simp [wr, wrList, beBytes, leBytes]
  have h2 : get_size (.tup [.uint 1 1, .uint 8 1, .uint 8 1]) = 17 := by
    simp [get_size, get_size_list]
  refine ⟨h1, h2, ?_⟩
  rw [h1, h2]
  intro hcontra
  simp at hcontra

theorem crcShift16_lt (n : Nat) : ∀ c, c < 2 ^ 16 → crcShift16 n c < 2 ^ 16 := by
  induction n with
  | zero => intro c hc; exact hc
  | succ n ih =>
    intro c hc
    rw [crcShift16]
    split
    · exact ih _ (by have := Nat.and_le_right (n := (c <<< 1) ^^^ 0x1021) (m := 0xFFFF); omega)
    · exact ih _ (by have := Nat.and_le_right (n := c <<< 1) (m := 0xFFFF); omega)

theorem computeCRC16_lt (data : List Nat) : computeCRC16 data < 2 ^ 16 := by
  rw [computeCRC16]
  have hstep : ∀ (acc : Nat), acc < 2 ^ 16 →
      ∀ l : List Nat, l.foldl (fun crc b => crcShift16 8 (crc ^^^ ((b % 256) <<< 8))) acc < 2 ^ 16 := by
    intro acc hacc l
    induction l generalizing acc with
    | nil => exact hacc
    | cons b rest ih =>
      rw [List.foldl_cons]
      apply ih
      apply crcShift16_lt
      apply Nat.xor_lt_two_pow hacc
      have : b % 256 < 2 ^ 8 := Nat.mod_lt _ (by norm_num)
      calc (b % 256) <<< 8 = (b % 256) * 2 ^ 8 := Nat.shiftLeft_eq _ _
        _ < 2 ^ 8 * 2 ^ 8 := by omega
        _ = 2 ^ 16 := by norm_num
  exact hstep 0 (by norm_num) data

theorem crcShift32_lt (n : Nat) : ∀ c, c < 2 ^ 32 → crcShift32 n c < 2 ^ 32 := by
  induction n with
  | zero => intro c hc; exact hc
  | succ n ih =>
    intro c hc
    rw [crcShift32]
    have hdiv : c >>> 1 < 2 ^ 32 := by
      rw [Nat.shiftRight_eq_div_pow]
      omega
    split
    · exact ih _ (Nat.xor_lt_two_pow hdiv (by norm_num))
    · exact ih _ hdiv

theorem computeCRC32_lt (data : List Nat) : computeCRC32 data < 2 ^ 32 := by
  rw [computeCRC32]
  have hstep : ∀ (acc : Nat), acc < 2 ^ 32 →
      ∀ l : List Nat, l.foldl (fun crc b => crcShift32 8 (crc ^^^ (b % 256))) acc < 2 ^ 32 := by
    intro acc hacc l
    induction l generalizing acc with
    | nil => exact hacc
    | cons b rest ih =>
      rw [List.foldl_cons]
      apply ih
      apply crcShift32_lt
      apply Nat.xor_lt_two_pow hacc
      have : b % 256 < 256 := Nat.mod_lt _ (by norm_num)
      omega
  apply Nat.xor_lt_two_pow (hstep _ (by norm_num) data) (by norm_num)

/-- Proof that `x &&& 2 ^ n = 0` for values below the bit. -/
theorem and_two_pow_of_lt {x n : Nat} (h : x < 2 ^ n) : x &&& 2 ^ n = 0 := by
  apply Nat.eq_of_testBit_eq
  intro i
  simp only [Nat.testBit_and, Nat.zero_testBit]
  rcases eq_or_ne i n with rfl | hne
  · rw [Nat.testBit_lt_two_pow h, Bool.false_and]
  · rw [Nat.testBit_two_pow_of_ne (Ne.symm hne), Bool.and_false]

theorem shiftRight_lor (a b n : Nat) : (a ||| b) >>> n = (a >>> n) ||| (b >>> n) := by
  apply Nat.eq_of_testBit_eq
  intro i
  simp [Nat.testBit_shiftRight, Nat.testBit_lor]

theorem shiftRight_eq_zero_of_lt {x n : Nat} (h : x < 2 ^ n) : x >>> n = 0 := by
  rw [Nat.shiftRight_eq_div_pow]
  exact Nat.div_eq_of_lt h

/-- Field extraction from a control byte assembled as
`(low ||| mid) ||| hi` with `low` in bits 0-4, `mid` in bit 5 and `hi` in
bits 6-7. -/
theorem control_fields (low mid hi : Nat) (hlow : low < 32)
    (hmid : mid = 0x20 ∨ mid = 0)
    (hhi : hi = 0 ∨ hi = 0x40 ∨ hi = 0x80 ∨ hi = 0xC0) :
    ((low ||| mid ||| hi) >>> 6) &&& 0x03 = hi >>> 6 ∧
    (low ||| mid ||| hi) &&& 0x20 = mid ∧
    (low ||| mid ||| hi) &&& 0x1F = low ∧
    (low ||| mid ||| hi).testBit 5 = decide (mid = 0x20) := by
  have hlow6 : low >>> 6 = 0 := shiftRight_eq_zero_of_lt (by omega)
  have hlow5 : low &&& 0x20 = 0 := by
    have := and_two_pow_of_lt (n := 5) (x := low) (by omega)
    norm_num at this
    exact this
  have hlow1F : low &&& 0x1F = low := by
    have := Nat.and_pow_two_sub_one_of_lt_two_pow (x := low) (n := 5) (by omega)
    norm_num at this
    exact this
  have hlowb5 : low.testBit 5 = false := Nat.testBit_lt_two_pow (by omega)
  refine ⟨?_, ?_, ?_, ?_⟩
  · rw [shiftRight_lor, shiftRight_lor, hlow6]
    rcases hmid with rfl | rfl <;> rcases hhi with rfl | rfl | rfl | rfl <;> decide
  · rw [Nat.and_distrib_right, Nat.and_distrib_right, hlow5]
    rcases hmid with rfl | rfl <;> rcases hhi with rfl | rfl | rfl | rfl <;> decide
  · rw [Nat.and_distrib_right, Nat.and_distrib_right, hlow1F]
    have e1 : (0x20 : Nat) &&& 0x1F = 0 := by decide
    have e2 : (0x40 : Nat) &&& 0x1F = 0 := by decide
    have e3 : (0x80 : Nat) &&& 0x1F = 0 := by decide
    have e4 : (0xC0 : Nat) &&& 0x1F = 0 := by decide
    have e5 : (0 : Nat) &&& 0x1F = 0 := by decide
    rcases hmid with rfl | rfl <;> rcases hhi with rfl | rfl | rfl | rfl <;>
      simp [e1, e2, e3, e4, e5]
  · simp only [Nat.testBit_lor, hlowb5, Bool.false_or]
    rcases hmid with rfl | rfl <;> rcases hhi with rfl | rfl | rfl | rfl <;> decide

/-- Reassembling a payload size from its low five bits and its high bits
shifted back up. -/
theorem low5_lor_shift (P : Nat) : (P &&& 0x1F) ||| ((P >>> 5) <<< 5) = P := by
  have h1 : P &&& 0x1F = P % 32 := by
    have h := Nat.and_pow_two_sub_one_eq_mod P 5
    norm_num at h
    exact h
  have h2 : P >>> 5 = P / 32 := by
    rw [Nat.shiftRight_eq_div_pow]
  have h3 : P % 32 < 2 ^ 5 := by
    have := Nat.mod_lt P (show 0 < 32 by norm_num)
    omega
  rw [h1, h2, lor_shiftLeft_eq_add h3]
  have h4 : (2 : Nat) ^ 5 = 32 := by norm_num
  rw [h4]
  omega

/-- Proof that `readFrame` accepts any byte string shaped like a frame: a control
byte assembled from the payload size's low five bits, a CRC flag bit and
an extra-length-bytes code, followed by matching extra length bytes, the
matching checksum, the payload, and then unrelated trailing bytes. -/
theorem readFrame_parse (P : Nat) (mid hi : Nat)
    (extraB crcB payload rest : List Nat)
    (hP : P = payload.length)
    (hmid : mid = 0x20 ∨ mid = 0)
    (hhi : hi = 0 ∨ hi = 0x40 ∨ hi = 0x80 ∨ hi = 0xC0)
    (hE : extraB.length = hi >>> 6)
    (hEval : 0 < hi >>> 6 → (P &&& 0x1F) ||| (leVal extraB <<< 5) = P)
    (hE0 : hi >>> 6 = 0 → P < 32)
    (hCn : crcB.length = if mid = 0x20 then 4 else 2)
    (hCval : leVal crcB =
      if mid = 0x20 then computeCRC32 payload else computeCRC16 payload) :
    readFrame ((((P &&& 0x1F) ||| mid ||| hi) :: (extraB ++ (crcB ++ payload))) ++ rest) =
      (.success, payload, rest) := by
  have hlow : P &&& 0x1F < 32 := by
    have : P &&& 0x1F ≤ 0x1F := Nat.and_le_right
    omega
  obtain ⟨hf1, hf2, hf3, hf4⟩ := control_fields (P &&& 0x1F) mid hi hlow hmid hhi
  have hrest1 : (((P &&& 0x1F) ||| mid ||| hi) :: (extraB ++ (crcB ++ payload))) ++ rest =
      ((P &&& 0x1F) ||| mid ||| hi) :: (extraB ++ (crcB ++ (payload ++ rest))) := by
    simp [List.append_assoc]
  rw [hrest1, readFrame]
  have hE3 : hi >>> 6 &&& 0x03 = hi >>> 6 := by
    rcases hhi with rfl | rfl | rfl | rfl <;> decide
  rw [hf1, hf2, hf3]
  have hlen1 : (extraB ++ (crcB ++ (payload ++ rest))).length =
      extraB.length + (crcB.length + (payload.length + rest.length)) := by
    simp
  rcases hmid with rfl | rfl
  · -- CRC32 selected
    have hb : (((32 : Nat) != 0) = true) = True := by decide
    simp only [hb, if_true]
    have hCn4 : crcB.length = 4 := by simpa using hCn
    rw [if_neg (by rw [hlen1, hE, hCn4]; omega)]
    have htkhdr : (extraB ++ (crcB ++ (payload ++ rest))).take (hi >>> 6 + 4) =
        extraB ++ crcB := take_append_len _ _ _ _ (by omega)
    have hdrhdr : (extraB ++ (crcB ++ (payload ++ rest))).drop (hi >>> 6 + 4) =
        payload ++ rest := by
      have := drop_append_len extraB crcB (payload ++ rest) (hi >>> 6 + 4) 0 (by omega)
      simpa using this
    rw [htkhdr, hdrhdr, List.take_left' hE, List.drop_left' hE]
    have hps : (if 0 < hi >>> 6 then (P &&& 31) ||| leVal extraB <<< 5 else P &&& 31) = P := by
      by_cases h0 : 0 < hi >>> 6
      · rw [if_pos h0]
        exact hEval h0
      · rw [if_neg h0]
        have hP32 : P < 32 := hE0 (by omega)
        have := Nat.and_pow_two_sub_one_of_lt_two_pow (x := P) (n := 5) (by norm_num; omega)
        norm_num at this
        exact this
    rw [hps]
    rw [if_neg (by simp; omega)]
    have htkp : (payload ++ rest).take P = payload := List.take_left' hP.symm
    have hdrp : (payload ++ rest).drop P = rest := List.drop_left' hP.symm
    rw [htkp, hdrp]
    simp only [if_true] at hCval
    rw [show leVal crcB = computeCRC32 payload from by simpa using hCval]
    simp
  · -- CRC16 selected
    have hb : (((0 : Nat) != 0) = true) = False := by decide
    simp only [hb, if_false]
    have hCn2 : crcB.length = 2 := by simpa using hCn
    rw [if_neg (by rw [hlen1, hE, hCn2]; omega)]
    have htkhdr : (extraB ++ (crcB ++ (payload ++ rest))).take (hi >>> 6 + 2) =
        extraB ++ crcB := take_append_len _ _ _ _ (by omega)
    have hdrhdr : (extraB ++ (crcB ++ (payload ++ rest))).drop (hi >>> 6 + 2) =
        payload ++ rest := by
      have := drop_append_len extraB crcB (payload ++ rest) (hi >>> 6 + 2) 0 (by omega)
      simpa using this
    rw [htkhdr, hdrhdr, List.take_left' hE, List.drop_left' hE]
    have hps : (if 0 < hi >>> 6 then (P &&& 31) ||| leVal extraB <<< 5 else P &&& 31) = P := by
      by_cases h0 : 0 < hi >>> 6
      · rw [if_pos h0]
        exact hEval h0
      · rw [if_neg h0]
        have hP32 : P < 32 := hE0 (by omega)
        have := Nat.and_pow_two_sub_one_of_lt_two_pow (x := P) (n := 5) (by norm_num; omega)
        norm_num at this
        exact this
    rw [hps]
    rw [if_neg (by simp; omega)]
    have htkp : (payload ++ rest).take P = payload := List.take_left' hP.symm
    have hdrp : (payload ++ rest).drop P = rest := List.drop_left' hP.symm
    rw [htkp, hdrp]
    have hC16 : leVal crcB = computeCRC16 payload := by simpa using hCval
    have hCsmall : leVal crcB < 65536 := by
      have h1 := leVal_lt crcB
      rw [hCn2] at h1
      norm_num at h1
      exact h1
    rw [show leVal crcB % 65536 = computeCRC16 payload from by
      rw [Nat.mod_eq_of_lt hCsmall, hC16]]
    simp

/-- A payload below `MaxBufferSize` has its high bits (the extra value)
below `2^24`, so three little-endian extra bytes always suffice. -/
theorem extra_lt_of_maxBuffer {P : Nat} (h : P < MaxBufferSize) :
    P >>> 5 < 16777216 := by
  have h2 : P < 536870912 := by simpa [MaxBufferSize] using h
  rw [Nat.shiftRight_eq_div_pow]
  have h3 : (2 : Nat) ^ 5 = 32 := by norm_num
  rw [h3]
  omega

/-- A payload whose extra value is zero fits in the control byte's low
five bits. -/
theorem lt_32_of_shift5_eq_zero {P : Nat} (h : P >>> 5 = 0) : P < 32 := by
  rw [Nat.shiftRight_eq_div_pow] at h
  have h3 : (2 : Nat) ^ 5 = 32 := by norm_num
  rw [h3] at h
  omega

/-- Proof that `readFrame` inverts `frameBytes`: the frame bytes for any payload
below the maximum buffer size, followed by any trailing bytes, parse as a
successful frame recovering exactly the payload and the trailing bytes. -/
theorem readFrame_frameBytes (force : Bool) (payload rest : List Nat)
    (hlen : payload.length < MaxBufferSize) :
    readFrame (frameBytes force payload ++ rest) = (.success, payload, rest) := by
  have key : ∀ mid : Nat, mid = 0x20 ∨ mid = 0 →
      ∀ crcB : List Nat, crcB.length = (if mid = 0x20 then 4 else 2) →
      leVal crcB = (if mid = 0x20 then computeCRC32 payload else computeCRC16 payload) →
      readFrame ((((payload.length &&& 0x1F) ||| mid |||
          (if payload.length >>> 5 = 0 then 0
           else if payload.length >>> 5 ≤ 0xFF then 0x40
           else if payload.length >>> 5 ≤ 0xFFFF then 0x80 else 0xC0)) ::
        ((if payload.length >>> 5 = 0 then ([] : List Nat)
          else if payload.length >>> 5 ≤ 0xFF then leBytes 1 (payload.length >>> 5)
          else if payload.length >>> 5 ≤ 0xFFFF then leBytes 2 (payload.length >>> 5)
          else leBytes 3 (payload.length >>> 5)) ++ (crcB ++ payload))) ++ rest) =
        (.success, payload, rest) := by
    intro mid hmid crcB hCn hCval
    by_cases h0 : payload.length >>> 5 = 0
    · rw [if_pos h0, if_pos h0]
      exact readFrame_parse payload.length mid 0 [] crcB payload rest rfl hmid
        (Or.inl rfl) rfl (fun h => absurd h (by decide))
        (fun _ => lt_32_of_shift5_eq_zero h0) hCn hCval
    · rw [if_neg h0, if_neg h0]
      by_cases h1 : payload.length >>> 5 ≤ 0xFF
      · rw [if_pos h1, if_pos h1]
        exact readFrame_parse payload.length mid 0x40 (leBytes 1 (payload.length >>> 5))
          crcB payload rest rfl hmid (Or.inr (Or.inl rfl))
          (by rw [leBytes_length]; decide)
          (fun _ => by
            rw [leVal_leBytes 1 (payload.length >>> 5) (by norm_num; omega)]
            exact low5_lor_shift payload.length)
          (fun h => absurd h (by decide)) hCn hCval
      · rw [if_neg h1, if_neg h1]
        by_cases h2 : payload.length >>> 5 ≤ 0xFFFF
        · rw [if_pos h2, if_pos h2]
          exact readFrame_parse payload.length mid 0x80 (leBytes 2 (payload.length >>> 5))
            crcB payload rest rfl hmid (Or.inr (Or.inr (Or.inl rfl)))
            (by rw [leBytes_length]; decide)
            (fun _ => by
              rw [leVal_leBytes 2 (payload.length >>> 5) (by norm_num; omega)]
              exact low5_lor_shift payload.length)
            (fun h => absurd h (by decide)) hCn hCval
        · rw [if_neg h2, if_neg h2]
          have h3 := extra_lt_of_maxBuffer hlen
          exact readFrame_parse payload.length mid 0xC0 (leBytes 3 (payload.length >>> 5))
            crcB payload rest rfl hmid (Or.inr (Or.inr (Or.inr rfl)))
            (by rw [leBytes_length]; decide)
            (fun _ => by
              rw [leVal_leBytes 3 (payload.length >>> 5) (by norm_num; omega)]
              exact low5_lor_shift payload.length)
            (fun h => absurd h (by decide)) hCn hCval
  by_cases hc : (force || decide (MinCRC32PayloadSize ≤ payload.length)) = true
  · have hfb : frameBytes force payload ++ rest =
        (((payload.length &&& 0x1F) ||| 0x20 |||
          (if payload.length >>> 5 = 0 then 0
           else if payload.length >>> 5 ≤ 0xFF then 0x40
           else if payload.length >>> 5 ≤ 0xFFFF then 0x80 else 0xC0)) ::
        ((if payload.length >>> 5 = 0 then ([] : List Nat)
          else if payload.length >>> 5 ≤ 0xFF then leBytes 1 (payload.length >>> 5)
          else if payload.length >>> 5 ≤ 0xFFFF then leBytes 2 (payload.length >>> 5)
          else leBytes 3 (payload.length >>> 5)) ++
          (leBytes 4 (computeCRC32 payload) ++ payload))) ++ rest := by
      simp only [frameBytes, hc, if_true]
    rw [hfb]
    refine key 0x20 (Or.inl rfl) (leBytes 4 (computeCRC32 payload))
      (by rw [leBytes_length]; simp) ?_
    rw [leVal_leBytes 4 (computeCRC32 payload) (by
      have := computeCRC32_lt payload
      norm_num at this ⊢
      omega)]
    simp
  · have hc' : (force || decide (MinCRC32PayloadSize ≤ payload.length)) = false := by
      simpa using hc
    have hfb : frameBytes force payload ++ rest =
        (((payload.length &&& 0x1F) ||| 0 |||
          (if payload.length >>> 5 = 0 then 0
           else if payload.length >>> 5 ≤ 0xFF then 0x40
           else if payload.length >>> 5 ≤ 0xFFFF then 0x80 else 0xC0)) ::
        ((if payload.length >>> 5 = 0 then ([] : List Nat)
          else if payload.length >>> 5 ≤ 0xFF then leBytes 1 (payload.length >>> 5)
          else if payload.length >>> 5 ≤ 0xFFFF then leBytes 2 (payload.length >>> 5)
          else leBytes 3 (payload.length >>> 5)) ++
          (leBytes 2 (computeCRC16 payload) ++ payload))) ++ rest := by
      simp only [frameBytes, hc', Bool.false_eq_true, if_false]
    rw [hfb]
    refine key 0 (Or.inr rfl) (leBytes 2 (computeCRC16 payload))
      (by rw [leBytes_length]; simp) ?_
    rw [leVal_leBytes 2 (computeCRC16 payload) (by
      have := computeCRC16_lt payload
      norm_num at this ⊢
      omega)]
    simp

/-- C7: for a non-empty buffered payload shorter than the maximum buffer
size, `writeFrame` appends exactly the frame bytes for that payload to the
file and resets the write offset, and `readFrame` accepts that frame with
`success`, recovering the same payload bytes (hence the same payload
length) and leaving the trailing file bytes unread. -/
theorem frame_roundtrip (st : WSt) (file rest : List Nat)
    (h0 : 0 < st.writeOffset) (hcap : st.writeOffset ≤ st.buffer.length)
    (hmax : st.writeOffset < MaxBufferSize) :
    writeFrame true st file =
      .ok ({ st with writeOffset := 0 },
        file ++ frameBytes st.forceCRC32 (st.buffer.take st.writeOffset)) ∧
    readFrame (frameBytes st.forceCRC32 (st.buffer.take st.writeOffset) ++ rest) =
      (.success, st.buffer.take st.writeOffset, rest) := by
  constructor
  · rw [writeFrame, if_neg (by omega), if_pos rfl]
  · apply readFrame_frameBytes
    rw [List.length_take]
    omega

/-- Witness: the round-trip at a concrete two-byte payload. -/
theorem frame_roundtrip_witness :
    writeFrame true ⟨[7, 8], 2, false⟩ [] =
      .ok (⟨[7, 8], 0, false⟩, [] ++ frameBytes false ([7, 8].take 2)) ∧
    readFrame (frameBytes false ([7, 8].take 2) ++ [9]) =
      (.success, [7, 8].take 2, [9]) :=
  frame_roundtrip ⟨[7, 8], 2, false⟩ [] [9] (by decide) (by decide) (by decide)

/-- C8: every frame emitted by `writeFrame` carries the four little-endian
CRC32 checksum bytes exactly when the payload length is at least
`MinCRC32PayloadSize` (512) or the force flag is set, and the two
little-endian CRC16 checksum bytes otherwise; bit 5 of the control byte
records that selection. -/
theorem frame_checksum_selection (force : Bool) (payload : List Nat) :
    ∃ control extraB,
      frameBytes force payload = control :: (extraB ++
        ((if force || decide (MinCRC32PayloadSize ≤ payload.length)
          then leBytes 4 (computeCRC32 payload)
          else leBytes 2 (computeCRC16 payload)) ++ payload)) ∧
      control.testBit 5 =
        (force || decide (MinCRC32PayloadSize ≤ payload.length)) := by
  refine ⟨(payload.length &&& 0x1F) |||
      (if force || decide (MinCRC32PayloadSize ≤ payload.length) then 0x20 else 0) |||
      (if payload.length >>> 5 = 0 then 0
       else if payload.length >>> 5 ≤ 0xFF then 0x40
       else if payload.length >>> 5 ≤ 0xFFFF then 0x80 else 0xC0),
    (if payload.length >>> 5 = 0 then ([] : List Nat)
     else if payload.length >>> 5 ≤ 0xFF then leBytes 1 (payload.length >>> 5)
     else if payload.length >>> 5 ≤ 0xFFFF then leBytes 2 (payload.length >>> 5)
     else leBytes 3 (payload.length >>> 5)), ?_, ?_⟩
  · simp only [frameBytes]
  · have hlow : payload.length &&& 0x1F < 32 := by
      have h := Nat.and_le_right (n := payload.length) (m := 0x1F)
      omega
    have hmid : (if force || decide (MinCRC32PayloadSize ≤ payload.length)
          then (0x20 : Nat) else 0) = 0x20 ∨
        (if force || decide (MinCRC32PayloadSize ≤ payload.length)
          then (0x20 : Nat) else 0) = 0 := by
      by_cases hb : (force || decide (MinCRC32PayloadSize ≤ payload.length)) = true
      · exact Or.inl (if_pos hb)
      · exact Or.inr (if_neg hb)
    have hhi : (if payload.length >>> 5 = 0 then (0 : Nat)
          else if payload.length >>> 5 ≤ 0xFF then 0x40
          else if payload.length >>> 5 ≤ 0xFFFF then 0x80 else 0xC0) = 0 ∨
        (if payload.length >>> 5 = 0 then (0 : Nat)
          else if payload.length >>> 5 ≤ 0xFF then 0x40
          else if payload.length >>> 5 ≤ 0xFFFF then 0x80 else 0xC0) = 0x40 ∨
        (if payload.length >>> 5 = 0 then (0 : Nat)
          else if payload.length >>> 5 ≤ 0xFF then 0x40
          else if payload.length >>> 5 ≤ 0xFFFF then 0x80 else 0xC0) = 0x80 ∨
        (if payload.length >>> 5 = 0 then (0 : Nat)
          else if payload.length >>> 5 ≤ 0xFF then 0x40
          else if payload.length >>> 5 ≤ 0xFFFF then 0x80 else 0xC0) = 0xC0 := by
      by_cases h0 : payload.length >>> 5 = 0
      · exact Or.inl (if_pos h0)
      · by_cases h1 : payload.length >>> 5 ≤ 0xFF
        · exact Or.inr (Or.inl (by rw [if_neg h0, if_pos h1]))
        · by_cases h2 : payload.length >>> 5 ≤ 0xFFFF
          · exact Or.inr (Or.inr (Or.inl (by rw [if_neg h0, if_neg h1, if_pos h2])))
          · exact Or.inr (Or.inr (Or.inr (by rw [if_neg h0, if_neg h1, if_neg h2])))
    obtain ⟨-, -, -, hf4⟩ := control_fields _ _ _ hlow hmid hhi
    rw [hf4]
    by_cases hb : (force || decide (MinCRC32PayloadSize ≤ payload.length)) = true
    · rw [if_pos hb, hb]
      decide
    · have hb' : (force || decide (MinCRC32PayloadSize ≤ payload.length)) = false := by
        simpa using hb
      rw [if_neg hb, hb']
      decide

/-- The growth loop stops at or above the requested size. -/
theorem growSize_ge : ∀ (sz used : Nat), 0 < sz → used ≤ growSize sz used
  | sz, used, h => by
    rw [growSize]
    split
    · next hc => exact growSize_ge (sz * 2) used (by omega)
    · next hc => omega
termination_by sz used _ => used - sz
decreasing_by omega

/-- The growth loop only ever doubles: the result is the start size times
a power of two. -/
theorem growSize_form : ∀ (sz used : Nat), ∃ k, growSize sz used = sz * 2 ^ k
  | sz, used => by
    rw [growSize]
    split
    · next hc =>
      obtain ⟨k, hk⟩ := growSize_form (sz * 2) used
      exact ⟨k + 1, by rw [hk]; ring⟩
    · next hc => exact ⟨0, by simp⟩
termination_by sz used => used - sz
decreasing_by omega

/-- The growth loop overshoots by less than a factor of two. -/
theorem growSize_lt : ∀ (sz used : Nat), 0 < sz → sz < used →
    growSize sz used < 2 * used
  | sz, used, h0, hlt => by
    rw [growSize, dif_pos ⟨h0, hlt⟩]
    by_cases h2 : sz * 2 < used
    · exact growSize_lt (sz * 2) used (by omega) h2
    · rw [growSize, dif_neg (by omega)]
      omega
termination_by sz used _ _ => used - sz
decreasing_by omega

/-- The growth step of `writeObject` (which starts the loop at twice the
buffer size) stays below twice the needed count. -/
theorem grow_step_lt (sz used : Nat) (h0 : 0 < sz) (h : sz < used) :
    growSize (sz * 2) used < 2 * used := by
  by_cases h2 : sz * 2 < used
  · exact growSize_lt _ _ (by omega) h2
  · rw [growSize, dif_neg (by omega)]
    omega

/-- Proof that `resizeTo` yields the requested length. -/
theorem resizeTo_length (buf : List Nat) (sz : Nat) :
    (resizeTo buf sz).length = sz := by
  simp [resizeTo]
  omega

/-- When the object fits in the remaining buffer capacity, `writeObject`
writes its encoding at the write offset, advances the offset and returns
the byte count, emitting nothing to the file. -/
theorem writeObjectF_fits (v : Val) (t : Ty) (hty : tyOk t v = true)
    (fuel : Nat) (st : WSt) (file : List Nat)
    (h : st.writeOffset + get_size v ≤ st.buffer.length) :
    writeObjectF true (fuel + 1) v st file =
      .ok (get_size v,
        ⟨st.buffer.take st.writeOffset ++
            (enc v ++ st.buffer.drop (st.writeOffset + get_size v)),
          st.writeOffset + get_size v, st.forceCRC32⟩, file) := by
  obtain ⟨buf, off, force⟩ := st
  simp only at h
  simp only [writeObjectF]
  rw [wr_fits v t hty (buf.drop off) (by rw [List.length_drop]; omega)]
  simp only [List.length_take]
  rw [if_neg (by omega)]
  simp [List.drop_drop, Nat.add_comm]

/-- Proof that `writeObject` from a flushed buffer (write offset zero): with enough
fuel it succeeds, returning `get_size v`, leaving the encoding at the
start of the buffer; the buffer length is the original times `2 ^ k`,
with `k = 0` when the object already fit in the whole buffer, and `k ≥ 1`
with a final length below `2 * get_size v` when it did not. -/
theorem writeObjectF_zero (v : Val) (t : Ty) (hty : tyOk t v = true) :
    ∀ (fuel : Nat) (buf : List Nat) (force : Bool) (file : List Nat),
    0 < buf.length → get_size v ≤ buf.length + fuel →
    ∃ (k : Nat) (tail : List Nat),
      writeObjectF true (fuel + 1) v ⟨buf, 0, force⟩ file =
        .ok (get_size v, ⟨enc v ++ tail, get_size v, force⟩, file) ∧
      (enc v ++ tail).length = buf.length * 2 ^ k ∧
      (get_size v ≤ buf.length → k = 0) ∧
      (buf.length < get_size v →
        1 ≤ k ∧ (enc v ++ tail).length < 2 * get_size v) := by
  intro fuel
  induction fuel with
  | zero =>
    intro buf force file hpos hfuel
    refine ⟨0, buf.drop (get_size v), ?_, ?_, fun _ => rfl,
      fun hc => absurd hc (by omega)⟩
    · have := writeObjectF_fits v t hty 0 ⟨buf, 0, force⟩ file (by simp; omega)
      simpa using this
    · rw [List.length_append, enc_length, List.length_drop]
      simp
      omega
  | succ m ih =>
    intro buf force file hpos hfuel
    by_cases hfits : get_size v ≤ buf.length
    · refine ⟨0, buf.drop (get_size v), ?_, ?_, fun _ => rfl,
        fun hc => absurd hc (by omega)⟩
      · have := writeObjectF_fits v t hty (m + 1) ⟨buf, 0, force⟩ file (by simp; omega)
        simpa using this
      · rw [List.length_append, enc_length, List.length_drop]
        simp
        omega
    · push_neg at hfits
      obtain ⟨used, region2, hwr, hgt, hle⟩ := wr_over v t hty buf hfits
      have hr2len : region2.length = buf.length := wr_len v buf used region2 hwr
      rw [writeObjectF]
      dsimp only
      rw [List.drop_zero, hwr]
      dsimp only
      simp only [List.take_zero, List.nil_append]
      rw [if_pos (by omega)]
      rw [writeFrame]
      rw [if_pos rfl]
      dsimp only
      rw [if_pos (by simpa [hr2len] using hgt)]
      have hg0 : 0 < region2.length * 2 := by omega
      have hge : used ≤ growSize (region2.length * 2) used := growSize_ge _ _ hg0
      obtain ⟨k1, hk1⟩ := growSize_form (region2.length * 2) used
      have hlt2 : growSize (region2.length * 2) used < 2 * used :=
        grow_step_lt region2.length used (by omega) (by omega)
      have hnew : (resizeTo region2 (growSize (region2.length * 2) used)).length =
          growSize (region2.length * 2) used := resizeTo_length _ _
      obtain ⟨k', tail', hres, hlen', hC', hD'⟩ :=
        ih (resizeTo region2 (growSize (region2.length * 2) used)) force file
          (by omega) (by omega)
      refine ⟨k1 + 1 + k', tail', ?_, ?_, fun hc => absurd hc (by omega), fun _ => ?_⟩
      · exact hres
      · rw [hlen', hnew, hk1, hr2len]
        ring
      · constructor
        · omega
        · by_cases hc2 : get_size v ≤
              (resizeTo region2 (growSize (region2.length * 2) used)).length
          · have hk0 : k' = 0 := hC' hc2
            rw [hlen', hk0, hnew]
            simp
            omega
          · exact (hD' (by omega)).2

/-- C9 (amended): when `writeObject`'s serializer call signals overflow
(needed bytes exceed the remaining capacity), the currently buffered
content — if there is any — is first emitted as its own frame; the buffer
is grown only when the needed count exceeds the whole buffer's size, and
then by repeated doubling of the buffer size (to `size * 2^k`, which is a
power of two only when the size is, and stays below twice the needed
count), and the object write is retried and succeeds, returning the
object's full byte size. -/
theorem writeObject_overflow_growth (v : Val) (t : Ty) (st : WSt) (file : List Nat)
    (hty : tyOk t v = true)
    (hpos : 0 < st.buffer.length)
    (hoff : st.writeOffset ≤ st.buffer.length)
    (hover : st.buffer.length - st.writeOffset < get_size v) :
    ∃ (k : Nat) (tail : List Nat),
      writeObjectF true (get_size v + 2) v st file =
        .ok (get_size v, ⟨enc v ++ tail, get_size v, st.forceCRC32⟩,
          file ++ (if st.writeOffset = 0 then ([] : List Nat)
            else frameBytes st.forceCRC32 (st.buffer.take st.writeOffset))) ∧
      (enc v ++ tail).length = st.buffer.length * 2 ^ k ∧
      (get_size v ≤ st.buffer.length → k = 0) ∧
      (st.buffer.length < get_size v →
        1 ≤ k ∧ (enc v ++ tail).length < 2 * get_size v) := by
  obtain ⟨buf, off, force⟩ := st
  dsimp only at hpos hoff hover ⊢
  have h2 : get_size v + 2 = (get_size v + 1) + 1 := rfl
  rw [h2]
  by_cases hoff0 : off = 0
  · subst hoff0
    rw [if_pos rfl, List.append_nil]
    exact writeObjectF_zero v t hty (get_size v + 1) buf force file hpos (by omega)
  · rw [if_neg hoff0]
    have hrlen : (buf.drop off).length = buf.length - off := by rw [List.length_drop]
    obtain ⟨used, region2, hwr, hgt, hle⟩ := wr_over v t hty (buf.drop off) (by omega)
    rw [hrlen] at hgt
    have hr2len : region2.length = buf.length - off := by
      rw [wr_len v (buf.drop off) used region2 hwr, hrlen]
    rw [writeObjectF]
    dsimp only
    rw [hwr]
    dsimp only
    rw [if_pos (by omega)]
    rw [writeFrame]
    rw [if_neg hoff0]
    rw [if_pos rfl]
    dsimp only
    have htk : (buf.take off ++ region2).take off = buf.take off :=
      List.take_left' (by rw [List.length_take]; omega)
    rw [htk]
    have hlen1 : (buf.take off ++ region2).length = buf.length := by
      rw [List.length_append, List.length_take, hr2len]
      omega
    by_cases hgrow : (buf.take off ++ region2).length < used
    · rw [if_pos hgrow]
      have hblt : buf.length < used := by rw [hlen1] at hgrow; exact hgrow
      have hge : used ≤ growSize ((buf.take off ++ region2).length * 2) used :=
        growSize_ge _ _ (by omega)
      obtain ⟨k1, hk1⟩ := growSize_form ((buf.take off ++ region2).length * 2) used
      have hlt2 : growSize ((buf.take off ++ region2).length * 2) used < 2 * used :=
        grow_step_lt (buf.take off ++ region2).length used (by omega) hgrow
      have hnewlen := resizeTo_length (buf.take off ++ region2)
        (growSize ((buf.take off ++ region2).length * 2) used)
      obtain ⟨k', tail', hres, hlen', hC', hD'⟩ :=
        writeObjectF_zero v t hty (get_size v)
          (resizeTo (buf.take off ++ region2)
            (growSize ((buf.take off ++ region2).length * 2) used))
          force (file ++ frameBytes force (buf.take off)) (by omega) (by omega)
      refine ⟨k1 + 1 + k', tail', hres, ?_, fun hc => absurd hc (by omega), fun _ => ?_⟩
      · rw [hlen', hnewlen, hk1, hlen1]
        ring
      · refine ⟨by omega, ?_⟩
        by_cases hc2 : get_size v ≤
            (resizeTo (buf.take off ++ region2)
              (growSize ((buf.take off ++ region2).length * 2) used)).length
        · have hk0 : k' = 0 := hC' hc2
          rw [hlen', hk0, hnewlen, pow_zero, Nat.mul_one]
          omega
        · exact (hD' (by omega)).2
    · rw [if_neg hgrow]
      obtain ⟨k', tail', hres, hlen', hC', hD'⟩ :=
        writeObjectF_zero v t hty (get_size v) (buf.take off ++ region2)
          force (file ++ frameBytes force (buf.take off)) (by omega) (by omega)
      refine ⟨k', tail', hres, by rw [hlen', hlen1],
        fun hc => hC' (by omega), fun hlt => ?_⟩
      have := hD' (by omega)
      exact this

/-- Witness: the overflow path at a concrete byte-string object and a
partially filled two-byte buffer. -/
theorem writeObject_overflow_growth_witness :
    ∃ (k : Nat) (tail : List Nat),
      writeObjectF true (get_size (.bytes [1, 2]) + 2) (.bytes [1, 2])
          ⟨[9, 9], 1, false⟩ [] =
        .ok (get_size (.bytes [1, 2]),
          ⟨enc (.bytes [1, 2]) ++ tail, get_size (.bytes [1, 2]), false⟩,
          [] ++ (if (1 : Nat) = 0 then ([] : List Nat)
            else frameBytes false ([9, 9].take 1))) ∧
      (enc (.bytes [1, 2]) ++ tail).length = 2 * 2 ^ k ∧
      (get_size (.bytes [1, 2]) ≤ 2 → k = 0) ∧
      (2 < get_size (.bytes [1, 2]) →
        1 ≤ k ∧ (enc (.bytes [1, 2]) ++ tail).length < 2 * get_size (.bytes [1, 2])) :=
  writeObject_overflow_growth (.bytes [1, 2]) .bytes ⟨[9, 9], 1, false⟩ []
    (by simp [tyOk, MAX_AUTOSER_BYTES]) (by decide) (by decide)
    (by simp [get_size, varSize, bit_width,
      nat_size_eq (show 2 ^ 1 ≤ 2 by norm_num) (by norm_num)])

/-- Counterexample to C9 as stated: a three-byte buffer and an object
needing seven bytes.  The claimed growth "to the power-of-two greater
than or equal to the needed byte count" would give capacity `8`; the code
doubles the current size (`3 → 6 → 12`) and ends with capacity `12`,
which is not a power of two at all. -/
theorem writeObject_growth_counterexample :
    writeObjectF true 9 (.bytes [1, 2, 3, 4, 5, 6]) ⟨[0, 0, 0], 0, false⟩ [] =
      .ok (7, ⟨[6, 1, 2, 3, 4, 5, 6, 0, 0, 0, 0, 0], 7, false⟩, []) ∧
    ([6, 1, 2, 3, 4, 5, 6, 0, 0, 0, 0, 0] : List Nat).length = 12 ∧
    (∀ p : Nat, (12 : Nat) ≠ 2 ^ p) := by
  have hv6 : varSize 6 = 1 := by
    rw [varSize, if_neg (by norm_num), bit_width,
      nat_size_eq (show 2 ^ 2 ≤ 6 by norm_num) (by norm_num)]
  have hty9 : tyOk .bytes (.bytes [1, 2, 3, 4, 5, 6]) = true := by
    simp [tyOk, MAX_AUTOSER_BYTES]
  have hg : get_size (.bytes [1, 2, 3, 4, 5, 6]) = 7 := by
    simp [get_size, hv6]
  have h1 : wr (.bytes [1, 2, 3, 4, 5, 6]) [0, 0, 0] = .ok (7, [0, 0, 0]) := by
    have h := wr_scalar_over (.bytes [1, 2, 3, 4, 5, 6]) .bytes hty9 rfl [0, 0, 0]
      (by rw [hg]; decide)
    rw [hg] at h
    exact h
  have henc : enc (.bytes [1, 2, 3, 4, 5, 6]) = [6, 1, 2, 3, 4, 5, 6] := by
    simp [enc, varEnc]
  have h2 : wr (.bytes [1, 2, 3, 4, 5, 6]) (List.replicate 12 0) =
      .ok (7, [6, 1, 2, 3, 4, 5, 6, 0, 0, 0, 0, 0]) := by
    have h := wr_fits (.bytes [1, 2, 3, 4, 5, 6]) .bytes hty9 (List.replicate 12 0)
      (by rw [hg]; decide)
    rw [hg, henc] at h
    rw [show (List.replicate 12 0).drop 7 = [0, 0, 0, 0, 0] from rfl] at h
    exact h
  refine ⟨?_, rfl, ?_⟩
  · rw [show (9 : Nat) = 8 + 1 from rfl, writeObjectF]
    dsimp only
    rw [List.drop_zero, h1]
    dsimp only
    rw [if_pos (by decide)]
    rw [writeFrame, if_pos rfl]
    dsimp only
    simp only [List.take_zero, List.nil_append]
    rw [if_pos (by decide)]
    have hgr : growSize ((([0, 0, 0] : List Nat).length) * 2) 7 = 12 := by
      rw [show (([0, 0, 0] : List Nat).length * 2) = 6 from rfl,
        growSize, dif_pos (by norm_num), growSize, dif_neg (by norm_num)]
    rw [hgr]
    rw [show resizeTo ([0, 0, 0] : List Nat) 12 = List.replicate 12 0 from by decide]
    rw [show (8 : Nat) = 7 + 1 from rfl, writeObjectF]
    dsimp only
    rw [List.drop_zero, h2]
    dsimp only
    rw [if_neg (by decide)]
    rfl
  · intro p
    rcases p with _ | _ | _ | _ | n
    · decide
    · decide
    · decide
    · decide
    · have h16 : (2 : Nat) ^ 4 ≤ 2 ^ (n + 1 + 1 + 1 + 1) :=
        Nat.pow_le_pow_right (by norm_num) (by omega)
      have h16' : (16 : Nat) ≤ 2 ^ (n + 1 + 1 + 1 + 1) := by
        calc (16 : Nat) = 2 ^ 4 := by norm_num
        _ ≤ 2 ^ (n + 1 + 1 + 1 + 1) := h16
      omega

/-- The spec's event-file fold and the code's event-file recursion agree
component by component, for every starting accumulator. -/
theorem specFold_eq_processEvents (kt vt : Ty) (kdef vdef : Val) (fuel : Nat) :
    ∀ (files : List (Nat × List Nat)) (c0 : Bool) (e t : Nat)
      (o : List (Val × Val)) (rem0 : List Nat),
    (files.foldl (specEventStep kt vt kdef vdef fuel) ⟨c0, e, t, o, rem0⟩).corrupted
        = (c0 || (processEvents kt vt kdef vdef fuel files e t o).2.1) ∧
    (files.foldl (specEventStep kt vt kdef vdef fuel) ⟨c0, e, t, o, rem0⟩).generation
        = (processEvents kt vt kdef vdef fuel files e t o).2.2.1 ∧
    (files.foldl (specEventStep kt vt kdef vdef fuel) ⟨c0, e, t, o, rem0⟩).objects
        = (processEvents kt vt kdef vdef fuel files e t o).2.2.2 ∧
    (files.foldl (specEventStep kt vt kdef vdef fuel) ⟨c0, e, t, o, rem0⟩).unlinked
        = rem0 ++ (processEvents kt vt kdef vdef fuel files e t o).1
  | [], c0, e, t, o, rem0 => by
    simp [processEvents]
  | (gen, contents) :: rest, c0, e, t, o, rem0 => by
    rw [List.foldl_cons, processEvents, specEventStep]
    dsimp only
    cases hrep : replayLoop kt vt kdef vdef fuel o ⟨[], contents⟩ with
    | mk ok objs =>
    cases ok
    · dsimp only
      obtain ⟨hc, hg, ho, hu⟩ := specFold_eq_processEvents kt vt kdef vdef fuel rest
        true (gen + 1) t objs (rem0 ++ [gen])
      rw [hc, hg, ho, hu]
      refine ⟨by simp, rfl, rfl, by simp⟩
    · dsimp only
      obtain ⟨hc, hg, ho, hu⟩ := specFold_eq_processEvents kt vt kdef vdef fuel rest
        (c0 || decide (gen ≠ e)) (gen + 1) gen objs rem0
      rw [hc, hg, ho, hu]
      exact ⟨by simp [Bool.or_assoc], rfl, rfl, rfl⟩

/-- C5: `Store::load` behaves exactly as the spec's `load()` algorithm:
event files failing replay are unlinked and loading continues; a
generation gap or overlap flags corruption; and when any corruption was
seen, load ends by taking a synchronous snapshot and returns `false`,
otherwise `true`. -/
theorem load_matches_spec (kt vt : Ty) (kdef vdef : Val) (fwriteOk : Bool)
    (fuel : Nat) (buffer : List Nat) (st : StoreM) (dir : DirM) :
    loadF kt vt kdef vdef fwriteOk fuel buffer st dir =
      specLoadM kt vt kdef vdef fwriteOk fuel buffer st dir := by
  rw [loadF, specLoadM]
  cases hpick : (match pickLatest dir.snaps with
         | some (g, contents) =>
           match replayLoop kt vt kdef vdef fuel [] ⟨[], contents⟩ with
           | (true, objs) => some (g, objs)
           | (false, _) => none
         | none => some (0, ([] : List (Val × Val)))) with
  | none => rfl
  | some p =>
    obtain ⟨time0, objects0⟩ := p
    dsimp only
    obtain ⟨hc, hg, ho, hu⟩ := specFold_eq_processEvents kt vt kdef vdef fuel
      (sortByGen (dir.evs.filter (fun p => decide (time0 ≤ p.1)))) false time0 time0
      objects0 []
    rw [hc, hg, ho, hu]
    simp only [Bool.false_or, List.nil_append]

/-- A concrete failing snapshot write: one entry, a roomy buffer, and a
failing `fwrite` — the entry serializes into the buffer and the final
flush's frame write throws. -/
theorem snapWriteFails :
    writeSnapshotE false 2 [(.uint 1 5, .uint 1 7)] (List.replicate 16 0) false =
      .error () := by
  have e2 : (2 : Nat) = 1 + 1 := rfl
  have h1 : wr (.uint 1 5) (List.replicate 16 0) =
      .ok (1, 5 :: List.replicate 15 0) := by
    rw [wr, if_neg (by decide)]
    rfl
  have h2 : wr (.uint 1 7) (List.replicate 15 0) =
      .ok (1, 7 :: List.replicate 14 0) := by
    rw [wr, if_neg (by decide)]
    rfl
  have hw1 : writeObjectF false (1 + 1) (.uint 1 5) ⟨List.replicate 16 0, 0, false⟩ [] =
      .ok (1, ⟨5 :: List.replicate 15 0, 1, false⟩, []) := by
    rw [writeObjectF]
    dsimp only
    rw [List.drop_zero, h1]
    dsimp only
    rw [if_neg (by decide)]
    rfl
  have hw2 : writeObjectF false (1 + 1) (.uint 1 7) ⟨5 :: List.replicate 15 0, 1, false⟩ [] =
      .ok (1, ⟨5 :: 7 :: List.replicate 14 0, 2, false⟩, []) := by
    rw [writeObjectF]
    dsimp only
    rw [show (5 :: List.replicate 15 0).drop 1 = List.replicate 15 0 from rfl, h2]
    dsimp only
    rw [if_neg (by decide)]
    rfl
  rw [e2, writeSnapshotE, snapshotLoop, writeUpdateF, hw1]
  dsimp only
  rw [hw2]
  dsimp only
  rw [snapshotLoop]
  dsimp only
  rw [writeFrame, if_neg (by decide), if_neg (by decide)]

/-- C1 (amended): if writing the snapshot temp file fails during
`save()`, the temp file is deleted, the error is propagated to the
caller, and the generation counter is not advanced — but no new event
log file is opened: the events handle, closed at the start of `save()`,
stays closed, so the store is left without an open events file. -/
theorem save_snapshot_failure (fwriteOk : Bool) (fuel : Nat) (buffer : List Nat)
    (st : StoreM) (dir : DirM)
    (hl : st.loaded = true)
    (hfail : writeSnapshotE fwriteOk fuel st.objects buffer st.forceCRC32 =
      .error ()) :
    saveE fwriteOk fuel buffer st dir =
      .error ({ st with eventsOpen := false }, dir) := by
  obtain ⟨ds, de, dt⟩ := dir
  rw [saveE, if_neg (by simp [hl])]
  dsimp only
  rw [hfail]
  dsimp only
  simp

/-- Witness: the failure path at a concrete one-entry store. -/
theorem save_snapshot_failure_witness :
    saveE false 2 (List.replicate 16 0)
        ⟨[(.uint 1 5, .uint 1 7)], true, true, 3, false⟩ ⟨[], [(3, [])], 0⟩ =
      .error (⟨[(.uint 1 5, .uint 1 7)], false, true, 3, false⟩,
        ⟨[], [(3, [])], 0⟩) :=
  save_snapshot_failure false 2 (List.replicate 16 0)
    ⟨[(.uint 1 5, .uint 1 7)], true, true, 3, false⟩ ⟨[], [(3, [])], 0⟩
    rfl snapWriteFails

/-- Counterexample to C1 as stated: after this failing `save()` the
store's events handle is closed, not re-opened — the claimed "usable
Loaded state with an open events file" does not hold (a subsequent
`update()` would write through a null `FILE*`). -/
theorem save_failure_counterexample :
    saveE false 2 (List.replicate 16 0)
        ⟨[(.uint 1 5, .uint 1 7)], true, true, 3, false⟩ ⟨[], [(3, [])], 0⟩ =
      .error (⟨[(.uint 1 5, .uint 1 7)], false, true, 3, false⟩,
        ⟨[], [(3, [])], 0⟩) ∧
    (⟨[(.uint 1 5, .uint 1 7)], false, true, 3, false⟩ : StoreM).eventsOpen = false ∧
    (⟨[(.uint 1 5, .uint 1 7)], false, true, 3, false⟩ : StoreM).time = 3 := by
  refine ⟨?_, rfl, rfl⟩
  rw [saveE, if_neg (by decide)]
  dsimp only
  rw [snapWriteFails]

/-- Concrete evaluation: writing the one-byte-string key `[65]` into a
fresh eight-byte buffer. -/
theorem wrKey65 :
    writeObjectF true (1 + 1) (.bytes [65]) ⟨List.replicate 8 0, 0, false⟩ [] =
      .ok (2, ⟨[1, 65, 0, 0, 0, 0, 0, 0], 2, false⟩, []) := by
  have hv1 : varSize 1 = 1 := by
    rw [varSize, if_neg (by norm_num), bit_width,
      nat_size_eq (show 2 ^ 0 ≤ 1 by norm_num) (by norm_num)]
  have htyk : tyOk .bytes (.bytes [65]) = true := by
    simp [tyOk, MAX_AUTOSER_BYTES]
  have hgk : get_size (.bytes [65]) = 2 := by
    simp [get_size, hv1]
  have henc1 : enc (.bytes [65]) = [1, 65] := by
    simp [enc, varEnc]
  have hk : wr (.bytes [65]) (List.replicate 8 0) =
      .ok (2, [1, 65, 0, 0, 0, 0, 0, 0]) := by
    have h := wr_fits (.bytes [65]) .bytes htyk (List.replicate 8 0) (by rw [hgk]; decide)
    rw [hgk, henc1] at h
    rw [show (List.replicate 8 0).drop 2 = [0, 0, 0, 0, 0, 0] from rfl] at h
    exact h
  rw [writeObjectF]
  dsimp only
  rw [List.drop_zero, hk]
  dsimp only
  rw [if_neg (by decide)]
  rfl

/-- Concrete evaluation: writing the empty byte-string value after the
key, at write offset two. -/
theorem wrValEmpty :
    writeObjectF true (1 + 1) (.bytes [])
        ⟨[1, 65, 0, 0, 0, 0, 0, 0], 2, false⟩ [] =
      .ok (1, ⟨[1, 65, 0, 0, 0, 0, 0, 0], 3, false⟩, []) := by
  have hv0 : varSize 0 = 1 := by
    rw [varSize, if_pos rfl]
  have htyv : tyOk .bytes (.bytes []) = true := by
    simp [tyOk, MAX_AUTOSER_BYTES]
  have hgv : get_size (.bytes []) = 1 := by
    simp [get_size, hv0]
  have henc0 : enc (.bytes []) = [0] := by
    simp [enc, varEnc]
  have hv : wr (.bytes []) ([0, 0, 0, 0, 0, 0] : List Nat) =
      .ok (1, [0, 0, 0, 0, 0, 0]) := by
    have h := wr_fits (.bytes []) .bytes htyv [0, 0, 0, 0, 0, 0] (by rw [hgv]; decide)
    rw [hgv, henc0] at h
    exact h
  rw [writeObjectF]
  dsimp only
  rw [show ([1, 65, 0, 0, 0, 0, 0, 0] : List Nat).drop 2 = [0, 0, 0, 0, 0, 0] from rfl,
    hv]
  dsimp only
  rw [if_neg (by decide)]
  rfl

/-- C2 (code bug): `writeSnapshot` writes every map entry, with no
`is_empty` filter — a key mapped to an empty value gets a record in the
snapshot payload.  Here the store holds exactly one entry whose value is
empty, yet the snapshot contents are a frame around that entry's record
rather than the empty file that "snapshots omit empty-valued entries"
would produce. -/
theorem snapshot_writes_empty_value :
    is_empty (.bytes []) = true ∧
    writeSnapshotE true 2 [(.bytes [65], .bytes [])] (List.replicate 8 0) false =
      .ok (frameBytes false (enc (.bytes [65]) ++ enc (.bytes []))) ∧
    frameBytes false (enc (.bytes [65]) ++ enc (.bytes [])) ≠ [] := by
  have henc1 : enc (.bytes [65]) = [1, 65] := by
    simp [enc, varEnc]
  have henc0 : enc (.bytes []) = [0] := by
    simp [enc, varEnc]
  refine ⟨by simp [is_empty], ?_, ?_⟩
  · rw [show (2 : Nat) = 1 + 1 from rfl, writeSnapshotE, snapshotLoop, writeUpdateF,
      wrKey65]
    dsimp only
    rw [wrValEmpty]
    dsimp only
    rw [snapshotLoop]
    dsimp only
    rw [writeFrame, if_neg (by decide), if_pos rfl]
    rw [henc1, henc0]
    rfl
  · rw [henc1, henc0]
    intro h
    have := congrArg List.length h
    rw [frameBytes] at this
    simp at this

/-- Erasing a key preserves the no-empty-values invariant. -/
theorem noEmpty_eraseA : ∀ (m : List (Val × Val)) (k : Val),
    noEmpty m = true → noEmpty (eraseA m k) = true
  | [], _, h => h
  | (k', v') :: m, k, h => by
    simp only [noEmpty, List.all_cons, Bool.and_eq_true] at h
    rw [eraseA]
    split
    · exact h.2
    · simp only [noEmpty, List.all_cons, Bool.and_eq_true]
      exact ⟨h.1, noEmpty_eraseA m k h.2⟩

/-- Setting a key to a non-empty value preserves the no-empty-values
invariant. -/
theorem noEmpty_setA : ∀ (m : List (Val × Val)) (k v : Val),
    noEmpty m = true → is_empty v = false → noEmpty (setA m k v) = true
  | [], k, v, h, hv => by simp [noEmpty, setA, hv]
  | (k', v') :: m, k, v, h, hv => by
    simp only [noEmpty, List.all_cons, Bool.and_eq_true] at h
    rw [setA]
    split
    · simp only [noEmpty, List.all_cons, Bool.and_eq_true]
      exact ⟨by simp [hv], h.2⟩
    · simp only [noEmpty, List.all_cons, Bool.and_eq_true]
      exact ⟨h.1, noEmpty_setA m k v h.2 hv⟩

/-- Every map `replay` leaves behind satisfies the no-empty-values
invariant when the starting map does: a decoded empty value erases its
key or is never inserted. -/
theorem replayLoop_noEmpty (kt vt : Ty) (kdef vdef : Val) :
    ∀ (fuel : Nat) (objects : List (Val × Val)) (r : RSt),
    noEmpty objects = true →
    noEmpty (replayLoop kt vt kdef vdef fuel objects r).2 = true
  | 0, objects, r, h => h
  | fuel + 1, objects, r, h => by
    rw [replayLoop]
    split
    · exact h
    · split
      · exact h
      · split
        · split
          · split
            · exact h
            · split
              · split
                · exact replayLoop_noEmpty kt vt kdef vdef fuel _ _
                    (noEmpty_eraseA _ _ h)
                · next hemp =>
                  exact replayLoop_noEmpty kt vt kdef vdef fuel _ _
                    (noEmpty_setA _ _ _ h (by simpa using hemp))
              · exact h
          · split
            · exact h
            · split
              · split
                · exact replayLoop_noEmpty kt vt kdef vdef fuel _ _ h
                · next hemp =>
                  exact replayLoop_noEmpty kt vt kdef vdef fuel _ _
                    (noEmpty_setA _ _ _ h (by simpa using hemp))
              · exact h
        · exact h
    · exact h

/-- The event-file loop preserves the no-empty-values invariant. -/
theorem processEvents_noEmpty (kt vt : Ty) (kdef vdef : Val) (fuel : Nat) :
    ∀ (files : List (Nat × List Nat)) (e t : Nat) (o : List (Val × Val)),
    noEmpty o = true →
    noEmpty (processEvents kt vt kdef vdef fuel files e t o).2.2.2 = true
  | [], _, _, _, h => h
  | (gen, contents) :: rest, e, t, o, h => by
    rw [processEvents]
    cases hrep : replayLoop kt vt kdef vdef fuel o ⟨[], contents⟩ with
    | mk ok objs =>
    have hno : noEmpty objs = true := by
      have h2 := replayLoop_noEmpty kt vt kdef vdef fuel o ⟨[], contents⟩ h
      rw [hrep] at h2
      exact h2
    cases ok
    · dsimp only
      exact processEvents_noEmpty kt vt kdef vdef fuel rest (gen + 1) t objs hno
    · dsimp only
      exact processEvents_noEmpty kt vt kdef vdef fuel rest (gen + 1) gen objs hno

/-- C10: a successful replay of any file maps no key to an empty value
when the starting map maps none (replay erases a key on decoding an
empty value and never inserts one); hence after every successful
`load()` the map holds no empty values; `update()`, by contrast, does
store empty values in the map. -/
theorem store_no_empty_invariant (kt vt : Ty) (kdef vdef : Val) :
    (∀ (fuel : Nat) (objects objects' : List (Val × Val)) (r : RSt),
      replayLoop kt vt kdef vdef fuel objects r = (true, objects') →
      noEmpty objects = true → noEmpty objects' = true) ∧
    (∀ (fwriteOk : Bool) (fuel : Nat) (buffer : List Nat) (st st' : StoreM)
      (dir dir' : DirM),
      loadF kt vt kdef vdef fwriteOk fuel buffer st dir = .ok (true, st', dir') →
      noEmpty st'.objects = true) ∧
    (∃ (st' : StoreM) (w' : WSt) (f' : List Nat),
      updateM true 2 ⟨[], true, true, 0, false⟩ ⟨List.replicate 8 0, 0, false⟩ []
        (.bytes [65]) (.bytes []) = .ok (st', w', f') ∧
      noEmpty st'.objects = false) := by
  refine ⟨?_, ?_, ?_⟩
  · intro fuel objects objects' r hrep h
    have h2 := replayLoop_noEmpty kt vt kdef vdef fuel objects r h
    rw [hrep] at h2
    exact h2
  · intro fwriteOk fuel buffer st st' dir dir' hload
    rw [loadF] at hload
    cases hp : (match pickLatest dir.snaps with
         | some (g, contents) =>
           match replayLoop kt vt kdef vdef fuel [] ⟨[], contents⟩ with
           | (true, objs) => some (g, objs)
           | (false, _) => none
         | none => some (0, ([] : List (Val × Val)))) with
    | none =>
      rw [hp] at hload
      exact absurd hload (by simp)
    | some p =>
      obtain ⟨time0, objects0⟩ := p
      rw [hp] at hload
      dsimp only at hload
      have h0 : noEmpty objects0 = true := by
        cases hps : pickLatest dir.snaps with
        | none =>
          rw [hps] at hp
          simp only [Option.some.injEq, Prod.mk.injEq] at hp
          rw [← hp.2]
          rfl
        | some q =>
          obtain ⟨g, contents⟩ := q
          rw [hps] at hp
          dsimp only at hp
          cases hr2 : replayLoop kt vt kdef vdef fuel [] ⟨[], contents⟩ with
          | mk ok2 objs2 =>
          rw [hr2] at hp
          cases ok2
          · simp at hp
          · dsimp only at hp
            simp only [Option.some.injEq, Prod.mk.injEq] at hp
            rw [← hp.2]
            have h2 := replayLoop_noEmpty kt vt kdef vdef fuel [] ⟨[], contents⟩ rfl
            rw [hr2] at h2
            exact h2
      cases hc : (processEvents kt vt kdef vdef fuel
          (sortByGen (dir.evs.filter (fun p => decide (time0 ≤ p.1))))
          time0 time0 objects0).2.1 with
      | true =>
        rw [hc] at hload
        rw [if_pos rfl] at hload
        cases hs : saveE fwriteOk fuel buffer
            { st with
              objects := (processEvents kt vt kdef vdef fuel
                (sortByGen (dir.evs.filter (fun p => decide (time0 ≤ p.1))))
                time0 time0 objects0).2.2.2
              time := (processEvents kt vt kdef vdef fuel
                (sortByGen (dir.evs.filter (fun p => decide (time0 ≤ p.1))))
                time0 time0 objects0).2.2.1
              loaded := true }
            { dir with evs := dir.evs.filter (fun p =>
                ! ((processEvents kt vt kdef vdef fuel
                  (sortByGen (dir.evs.filter (fun p => decide (time0 ≤ p.1))))
                  time0 time0 objects0).1.contains p.1)) } with
        | error e =>
          rw [hs] at hload
          exact absurd hload (by simp)
        | ok p2 =>
          obtain ⟨st2, dir2⟩ := p2
          rw [hs] at hload
          simp at hload
      | false =>
        rw [hc] at hload
        rw [if_neg (by simp)] at hload
        simp only [Except.ok.injEq, Prod.mk.injEq] at hload
        rw [← hload.2.1]
        dsimp only
        exact processEvents_noEmpty kt vt kdef vdef fuel _ time0 time0 objects0 h0
  · refine ⟨⟨[(.bytes [65], .bytes [])], true, true, 0, false⟩,
      ⟨[1, 65, 0, 0, 0, 0, 0, 0], 3, false⟩, [], ?_, by simp [noEmpty, is_empty]⟩
    rw [show (2 : Nat) = 1 + 1 from rfl, updateM, writeUpdateF, wrKey65]
    dsimp only
    rw [wrValEmpty]
    dsimp only
    rfl

/-- Witness: the invariant theorem applied to a concrete trivial replay
(an empty file over a one-entry map) and a concrete trivial load (an
empty directory). -/
theorem store_no_empty_invariant_witness :
    noEmpty [(.bytes [65], .bytes [66])] = true ∧
    noEmpty (⟨[], true, true, 0, false⟩ : StoreM).objects = true :=
  ⟨(store_no_empty_invariant .bytes .bytes (.bytes []) (.bytes [])).1 1
      [(.bytes [65], .bytes [66])] [(.bytes [65], .bytes [66])] ⟨[], []⟩ rfl
      (by simp [noEmpty, is_empty]),
    (store_no_empty_invariant .bytes .bytes (.bytes []) (.bytes [])).2.1 true 1 []
      ⟨[], false, false, 0, false⟩ ⟨[], true, true, 0, false⟩ ⟨[], [], 0⟩
      ⟨[], [(0, [])], 0⟩ rfl⟩

end Logkv
